import Mathlib

/-!
# msamr: AMR narrowband payload demultiplexing and encoder framing

A shallow embedding of `submodules/msamr/src/msamr.c`.

* Bytes are natural numbers; the two TOC accessors are the C macros.
* An input message is the byte string between `b_rptr` and `b_wptr` of a
  single-block `mblk_t` together with the memory that follows `b_wptr`, so a
  read past the end of the message is a read of `past`, not an error that hides it.
  Read cursors are offsets from the initial `b_rptr`.
* The two codec engines are parameters (state-passing functions).
* Every call that the claims talk about is recorded in an event log.
* Loops whose bound is not syntactic carry a fuel argument; running out of fuel
  is `none`, and the totality lemmas show that it never happens.
* The C `int` counters stay far below `2^31` for every message the pipeline can
  hold, so they are natural numbers; the 32-bit timestamp wraps explicitly.
-/

namespace Msamr

/-! ## Constants and TOC accessors -/

/-- The table `amr_frame_sizes` (frame bytes per mode index, `0` at index 9). -/
def amr_frame_sizes : List Nat := [12, 13, 15, 17, 19, 20, 26, 31, 5, 0]

/-- The macro `toc_get_f(toc)`, `(toc) >> 7`. -/
def toc_get_f (toc : Nat) : Nat := toc >>> 7

/-- The macro `toc_get_index(toc)`, `(toc >> 3) & 0xf`. -/
def toc_get_index (toc : Nat) : Nat := (toc >>> 3) &&& 0xf

/-- The constant `nsamples` of both process functions. -/
def nsamples : Nat := 160

/-! ## Messages -/

/-- A single-block input message: `data` are the bytes in `[b_rptr, b_wptr)` on entry,
`past k` is the byte stored `k` places after `b_wptr`. -/
structure mblk_t where
  data : List Nat
  past : Nat → Nat

/-- The function `msgdsize(im)` for a single-block message. -/
def msgdsize (im : mblk_t) : Nat := im.data.length

/-- The byte at offset `i` from the initial `b_rptr` (what `b_rptr[i]` dereferences). -/
def mblk_t.byte (im : mblk_t) (i : Nat) : Nat :=
  if h : i < im.data.length then im.data.get ⟨i, h⟩ else im.past (i - im.data.length)

/-- An output PCM message: `allocb(nsamples*2,0)` filled by the engine, with
`b_wptr` advanced by `nbytes`. -/
structure PcmBlock (β : Type) where
  pcm : β
  nbytes : Nat

/-- The warnings the filter can log. -/
inductive Warning where
  | bad_toc_list
  | bad_toc (index : Nat)
  | truncated_frame
  | encoder_returned (ret : Int)

/-- Observable actions of `dec_process`, in program order. Offsets are relative to the
initial `b_rptr` of the message being processed. -/
inductive Event (β : Type) where
  | toc_list_check (buflen : Nat) (reads : List Nat) (ret : Int)
  | ms_warning (w : Warning)
  | memcpy (src len : Nat)
  | Decoder_Interface_Decode (tmp : List Nat)
  | ms_queue_put (om : PcmBlock β)
  | freemsg

/-! ## `toc_list_check` -/

/-- The `while` loop of `toc_list_check`: `p` is how far `tl` has advanced, `s` the
counter. Returns the C return value and the offsets of `tl` it dereferenced. -/
def toc_list_check_loop (tl : Nat → Nat) (buflen : Nat) :
    Nat → Nat → Nat → Option (Int × List Nat)
  | 0, _, _ => none
  | fuel + 1, p, s =>
    if toc_get_f (tl p) ≠ 0 then
      if s + 1 > buflen then some (-1, [p])
      else (toc_list_check_loop tl buflen fuel (p + 1) (s + 1)).map
        (fun r => (r.1, p :: r.2))
    else some ((s : Int), [p])

/-- The function `toc_list_check(tl, buflen)`, `s` starting at `1`. -/
def toc_list_check (tl : Nat → Nat) (buflen : Nat) : Option (Int × List Nat) :=
  toc_list_check_loop tl buflen (buflen + 1) 0 1

/-! ## `dec_process` -/

/-- The `for(i=0;i<toclen;++i)` loop of `dec_process`. `tocs` is the offset of the TOC
list, `n` the number of iterations left, `i` the loop index, `b_rptr` the read cursor,
`b_wptr` is `im.data.length`. Returns the engine state and the events. -/
def dec_frames {σ β : Type} (dec : σ → List Nat → σ × β) (im : mblk_t) (tocs : Nat) :
    Nat → Nat → Nat → σ → σ × List (Event β)
  | 0, _, _, st => (st, [])
  | n + 1, i, b_rptr, st =>
    let index := toc_get_index (im.byte (tocs + i))
    if index ≥ 9 then
      (st, [Event.ms_warning (Warning.bad_toc index)])
    else
      let framesz := amr_frame_sizes.getD index 0
      if b_rptr + framesz > im.data.length then
        (st, [Event.ms_warning Warning.truncated_frame])
      else
        let tmp := im.byte (tocs + i) :: (List.range framesz).map (fun j => im.byte (b_rptr + j))
        let r := dec st tmp
        let om : PcmBlock β := { pcm := r.2, nbytes := nsamples * 2 }
        let rest := dec_frames dec im tocs n (i + 1) (b_rptr + framesz) r.1
        (rest.1, Event.memcpy b_rptr framesz :: Event.Decoder_Interface_Decode tmp ::
          Event.ms_queue_put om :: rest.2)

/-- The body of the `while` loop of `dec_process` for one dequeued message. -/
def dec_process_msg {σ β : Type} (dec : σ → List Nat → σ × β) (st : σ) (im : mblk_t) :
    Option (σ × List (Event β)) :=
  let sz := msgdsize im
  if sz < 2 then some (st, [Event.freemsg])
  else
    match toc_list_check (fun k => im.byte (1 + k)) sz with
    | none => none
    | some (toclen, reads) =>
      let ev : Event β := Event.toc_list_check sz (reads.map (fun k => 1 + k)) toclen
      if toclen = -1 then
        some (st, [ev, Event.ms_warning Warning.bad_toc_list, Event.freemsg])
      else
        let r := dec_frames dec im 1 toclen.toNat 0 (1 + toclen.toNat) st
        some (r.1, ev :: r.2 ++ [Event.freemsg])

/-- The function `dec_process`: drains the input queue `q` in order. -/
def dec_process {σ β : Type} (dec : σ → List Nat → σ × β) :
    σ → List mblk_t → Option (σ × List (Event β))
  | st, [] => some (st, [])
  | st, im :: q =>
    match dec_process_msg dec st im with
    | none => none
    | some r =>
      match dec_process dec r.1 q with
      | none => none
      | some r2 => some (r2.1, r.2 ++ r2.2)

/-! ## Observations on an event log -/

/-- The PCM blocks put on the output queue, in order. -/
def blocks {β : Type} : List (Event β) → List (PcmBlock β)
  | [] => []
  | Event.ms_queue_put om :: l => om :: blocks l
  | _ :: l => blocks l

/-- The units handed to `Decoder_Interface_Decode`, in order. -/
def units {β : Type} : List (Event β) → List (List Nat)
  | [] => []
  | Event.Decoder_Interface_Decode tmp :: l => tmp :: units l
  | _ :: l => units l

/-- The message offsets dereferenced by the TOC scans, in order. -/
def toc_reads {β : Type} : List (Event β) → List Nat
  | [] => []
  | Event.toc_list_check _ reads _ :: l => reads ++ toc_reads l
  | _ :: l => toc_reads l

/-- The number of calls of `toc_list_check`. -/
def toc_calls {β : Type} : List (Event β) → Nat
  | [] => 0
  | Event.toc_list_check _ _ _ :: l => toc_calls l + 1
  | _ :: l => toc_calls l

/-- The `(source offset, length)` pairs of the frame copies, in order. -/
def copies {β : Type} : List (Event β) → List (Nat × Nat)
  | [] => []
  | Event.memcpy src len :: l => (src, len) :: copies l
  | _ :: l => copies l

/-! ## Encoder -/

/-- Modelled from the spec: the enumerator `MR122` of the codec engine's header
`interf_enc.h`, the fixed encode mode, "highest-quality class in the table" (index 7). -/
def MR122 : Nat := 7

/-- Modelled from the spec: `ms_bufferizer_put` of the pipeline library, "appends samples
to the internal buffer". -/
def ms_bufferizer_put (mb : List Nat) (im : mblk_t) : List Nat := mb ++ im.data

/-- Modelled from the spec: `ms_bufferizer_read(mb, data, datalen)` of the pipeline
library, "removes exactly one window's worth of samples from the front of the buffer
while at least one window is available". Returns the C return value (`datalen` or `0`),
the bytes copied out and the remaining buffer. -/
def ms_bufferizer_read (mb : List Nat) (datalen : Nat) : Nat × List Nat × List Nat :=
  if mb.length ≥ datalen then (datalen, mb.take datalen, mb.drop datalen) else (0, [], mb)

/-- Modelled from the spec: `ms_bufferizer_flush` of the pipeline library, "clears any
buffered partial window". -/
def ms_bufferizer_flush (_mb : List Nat) : List Nat := []

/-- What one call of `Encoder_Interface_Encode` does: the engine state after it, the
returned count, and the bytes it left at `om->b_wptr[0..]`. -/
structure EncodeResult (ε : Type) where
  enc : Option ε
  ret : Int
  out : Nat → Nat

/-- The struct `EncState`; `enc = none` is the `NULL` handle, `ts` is a `uint32_t`. -/
structure EncState (ε : Type) where
  enc : Option ε
  mb : List Nat
  ts : Nat
  dtx : Bool

/-- An output payload message with its timestamp info. -/
structure Payload where
  data : List Nat
  timestamp : Nat

/-- Observable actions of `enc_process`, in program order. -/
inductive EncEvent where
  | Encoder_Interface_Encode (mode : Nat) (samples : List Nat) (ret : Int)
  | ms_warning (w : Warning)
  | ms_queue_put (om : Payload)
  | freemsg

/-- The function `enc_init`: `ms_new0` zeroes the struct. -/
def enc_init {ε : Type} : EncState ε :=
  { enc := none, mb := [], ts := 0, dtx := false }

/-- The function `enc_preprocess`, with the engine's `Encoder_Interface_init`. -/
def enc_preprocess {ε : Type} (Encoder_Interface_init : Bool → Option ε) (s : EncState ε) :
    EncState ε :=
  { s with enc := Encoder_Interface_init s.dtx }

/-- The first `while` loop of `enc_process`: every queued message goes into the
bufferizer. -/
def enc_fill (mb : List Nat) : List mblk_t → List Nat
  | [] => mb
  | im :: q => enc_fill (ms_bufferizer_put mb im) q

/-- The second `while` loop of `enc_process`. -/
def enc_loop {ε : Type} (encode : Option ε → Nat → List Nat → Nat → EncodeResult ε) :
    Nat → EncState ε → Option (EncState ε × List EncEvent)
  | 0, _ => none
  | fuel + 1, s =>
    let rd := ms_bufferizer_read s.mb (nsamples * 2)
    if rd.1 ≥ nsamples * 2 then
      let e := encode s.enc MR122 rd.2.1 0
      let call := EncEvent.Encoder_Interface_Encode MR122 rd.2.1 e.ret
      if e.ret ≤ 0 then
        (enc_loop encode fuel { s with enc := e.enc, mb := rd.2.2 }).map
          (fun r => (r.1, call :: EncEvent.ms_warning (Warning.encoder_returned e.ret) ::
            EncEvent.freemsg :: r.2))
      else
        let om : Payload :=
          { data := 0xf0 :: (List.range e.ret.toNat).map e.out, timestamp := s.ts }
        (enc_loop encode fuel
            { s with enc := e.enc, mb := rd.2.2, ts := (s.ts + nsamples) % 2 ^ 32 }).map
          (fun r => (r.1, call :: EncEvent.ms_queue_put om :: r.2))
    else some ({ s with mb := rd.2.2 }, [])

/-- The function `enc_process` on the input queue `q`. -/
def enc_process {ε : Type} (encode : Option ε → Nat → List Nat → Nat → EncodeResult ε)
    (s : EncState ε) (q : List mblk_t) : Option (EncState ε × List EncEvent) :=
  let mb := enc_fill s.mb q
  enc_loop encode (mb.length + 1) { s with mb := mb }

/-- The function `enc_postprocess`, with the engine's `Encoder_Interface_exit`. -/
def enc_postprocess {ε : Type} (s : EncState ε) : EncState ε :=
  { s with enc := none, mb := ms_bufferizer_flush s.mb }

/-- The payloads put on the output queue, in order. -/
def payloads : List EncEvent → List Payload
  | [] => []
  | EncEvent.ms_queue_put om :: l => om :: payloads l
  | _ :: l => payloads l

/-- The blocks the decoder builds when the engine is run on a sequence of units, its
state threaded from one call to the next. -/
def decode_run {σ β : Type} (dec : σ → List Nat → σ × β) : σ → List (List Nat) → List (PcmBlock β)
  | _, [] => []
  | st, u :: us => { pcm := (dec st u).2, nbytes := nsamples * 2 } :: decode_run dec (dec st u).1 us

/-- The value of the read cursor `b_rptr` when the frame loop reaches entry `j` of a
message with `toclen` TOC entries: the header byte, the TOC bytes and the frames of the
entries before `j` have been skipped. -/
def frame_offset (im : mblk_t) (toclen : Nat) : Nat → Nat
  | 0 => 1 + toclen
  | j + 1 => frame_offset im toclen j + amr_frame_sizes.getD (toc_get_index (im.byte (1 + j))) 0

/-- The single-frame unit of entry `j`: its TOC byte followed by the
`amr_frame_sizes[index]` message bytes at its frame offset. -/
def frame_unit (im : mblk_t) (toclen : Nat) (j : Nat) : List Nat :=
  im.byte (1 + j) :: (im.data.drop (frame_offset im toclen j)).take
    (amr_frame_sizes.getD (toc_get_index (im.byte (1 + j))) 0)

/-- Successive calls of `enc_process` by the scheduler, one per input queue of `qs`, on
the session state left by the call before. Returns the last state and the events of each
call. -/
def enc_run {ε : Type} (encode : Option ε → Nat → List Nat → Nat → EncodeResult ε) :
    EncState ε → List (List mblk_t) → Option (EncState ε × List (List EncEvent))
  | s, [] => some (s, [])
  | s, q :: qs =>
    match enc_process encode s q with
    | none => none
    | some r =>
      match enc_run encode r.1 qs with
      | none => none
      | some r2 => some (r2.1, r.2 :: r2.2)

/-- The windows handed to `Encoder_Interface_Encode`, in order. -/
def windows : List EncEvent → List (List Nat)
  | [] => []
  | EncEvent.Encoder_Interface_Encode _ samples _ :: l => samples :: windows l
  | _ :: l => windows l

/-- The size of the scratch buffer `uint8_t tmp[32]` of `dec_process`. -/
def sizeof_tmp : Nat := 32

/-! ## The TOC scan -/

/-- The scan stops at the first byte whose flag is clear when the bound allows it. -/
theorem toc_list_check_loop_stop (tl : Nat → Nat) (buflen : Nat) :
    ∀ (d fuel p s : Nat), d + 1 ≤ fuel → s + d ≤ buflen →
      (∀ j, j < d → toc_get_f (tl (p + j)) ≠ 0) → toc_get_f (tl (p + d)) = 0 →
      toc_list_check_loop tl buflen fuel p s = some (((s + d : Nat) : Int), List.range' p (d + 1)) := by
  intro d
  induction d with
  | zero =>
    intro fuel p s hf _ _ hz
    obtain ⟨f, rfl⟩ : ∃ f, fuel = f + 1 := ⟨fuel - 1, by omega⟩
    simp only [Nat.add_zero] at hz
    simp [toc_list_check_loop, hz]
  | succ d ih =>
    intro fuel p s hf hs hset hz
    obtain ⟨f, rfl⟩ : ∃ f, fuel = f + 1 := ⟨fuel - 1, by omega⟩
    have h0 : toc_get_f (tl p) ≠ 0 := by simpa using hset 0 (by omega)
    have hle : ¬ (s + 1 > buflen) := by omega
    have hrec := ih f (p + 1) (s + 1) (by omega) (by omega)
      (fun j hj => by have := hset (j + 1) (by omega); rwa [show p + 1 + j = p + (j + 1) by omega])
      (by rwa [show p + 1 + d = p + (d + 1) by omega])
    rw [toc_list_check_loop, if_pos h0, if_neg hle, hrec]
    simp only [Option.map_some', List.range'_succ p (d + 1)]
    congr 3
    omega

/-- The scan fails when the counter passes the bound on a run of flagged bytes. -/
theorem toc_list_check_loop_fail (tl : Nat → Nat) (buflen : Nat) :
    ∀ (d fuel p s : Nat), d + 1 ≤ fuel → s + d = buflen →
      (∀ j, j < d + 1 → toc_get_f (tl (p + j)) ≠ 0) →
      toc_list_check_loop tl buflen fuel p s = some (-1, List.range' p (d + 1)) := by
  intro d
  induction d with
  | zero =>
    intro fuel p s hf hs hset
    obtain ⟨f, rfl⟩ : ∃ f, fuel = f + 1 := ⟨fuel - 1, by omega⟩
    have h0 : toc_get_f (tl p) ≠ 0 := by simpa using hset 0 (by omega)
    have hgt : s + 1 > buflen := by omega
    simp [toc_list_check_loop, h0, hgt]
  | succ d ih =>
    intro fuel p s hf hs hset
    obtain ⟨f, rfl⟩ : ∃ f, fuel = f + 1 := ⟨fuel - 1, by omega⟩
    have h0 : toc_get_f (tl p) ≠ 0 := by simpa using hset 0 (by omega)
    have hle : ¬ (s + 1 > buflen) := by omega
    have hrec := ih f (p + 1) (s + 1) (by omega) (by omega)
      (fun j hj => by have := hset (j + 1) (by omega); rwa [show p + 1 + j = p + (j + 1) by omega])
    rw [toc_list_check_loop, if_pos h0, if_neg hle, hrec]
    simp only [Option.map_some', List.range'_succ p (d + 1)]

/-- The fuel given by `toc_list_check` is never used up. -/
theorem toc_list_check_loop_total (tl : Nat → Nat) (buflen : Nat) :
    ∀ (fuel p s : Nat), 1 ≤ fuel → buflen + 1 ≤ fuel + s →
      ∃ r, toc_list_check_loop tl buflen fuel p s = some r := by
  intro fuel
  induction fuel with
  | zero => intro p s h; omega
  | succ f ih =>
    intro p s _ hs
    by_cases h0 : toc_get_f (tl p) = 0
    · simp [toc_list_check_loop, h0]
    · by_cases hgt : s + 1 > buflen
      · simp [toc_list_check_loop, h0, hgt]
      · obtain ⟨r, hr⟩ := ih (p + 1) (s + 1) (by omega) (by omega)
        simp [toc_list_check_loop, h0, hgt, hr]

/-- The function `toc_list_check` always returns. -/
theorem toc_list_check_total (tl : Nat → Nat) (buflen : Nat) :
    ∃ r, toc_list_check tl buflen = some r :=
  toc_list_check_loop_total tl buflen (buflen + 1) 0 1 (by omega) (by omega)

/-- C3: when the first byte whose continuation flag is clear sits at index `k < max_len`
(so `max_len >= 1`), `toc_list_check(buffer, max_len)` returns `k + 1`, having read
exactly the bytes `0..k`. -/
theorem C3_toc_list_check_returns_entry_count (tl : Nat → Nat) (max_len k : Nat)
    (hk : k < max_len) (hset : ∀ j, j < k → toc_get_f (tl j) ≠ 0)
    (hclear : toc_get_f (tl k) = 0) :
    toc_list_check tl max_len = some (((k + 1 : Nat) : Int), List.range' 0 (k + 1)) := by
  have h := toc_list_check_loop_stop tl max_len k (max_len + 1) 0 1 (by omega) (by omega)
    (fun j hj => by simpa using hset j hj) (by simpa using hclear)
  rw [toc_list_check, h, Nat.add_comm 1 k]

/-- Witness of C3: two flagged bytes and then a clear one, bound 5, give 3. -/
theorem C3_toc_list_check_returns_entry_count_witness :
    toc_list_check (fun i => [0xbc, 0x84, 0x3c, 0xff, 0xff].getD i 0) 5
      = some (3, [0, 1, 2]) :=
  C3_toc_list_check_returns_entry_count (fun i => [0xbc, 0x84, 0x3c, 0xff, 0xff].getD i 0) 5 2
    (by decide) (by decide) (by decide)

/-- C4: on a buffer whose first `max_len >= 1` bytes all have the continuation flag set,
`toc_list_check(buffer, max_len)` returns (it does not run out of steps), the value is
`-1`, and the bytes it has read are exactly those at indices `0..max_len-1`: at most
`max_len` reads, none at or beyond `max_len`. -/
theorem C4_toc_list_check_fails_within_bound (tl : Nat → Nat) (max_len : Nat)
    (hmax : 1 ≤ max_len) (hset : ∀ j, j < max_len → toc_get_f (tl j) ≠ 0) :
    ∃ reads, toc_list_check tl max_len = some (-1, reads) ∧
      reads = List.range' 0 max_len ∧ reads.length ≤ max_len ∧ ∀ i ∈ reads, i < max_len := by
  obtain ⟨d, rfl⟩ : ∃ d, max_len = d + 1 := ⟨max_len - 1, by omega⟩
  refine ⟨List.range' 0 (d + 1), ?_, rfl, by simp, ?_⟩
  · exact toc_list_check_loop_fail tl (d + 1) d (d + 1 + 1) 0 1 (by omega) (by omega)
      (fun j hj => by simpa using hset j hj)
  · intro i hi
    have := List.mem_range'_1.mp hi
    omega

/-- Witness of C4: three flagged bytes, bound 3. -/
theorem C4_toc_list_check_fails_within_bound_witness :
    ∃ reads, toc_list_check (fun _ => 0x80) 3 = some (-1, reads) ∧
      reads = List.range' 0 3 ∧ reads.length ≤ 3 ∧ ∀ i ∈ reads, i < 3 :=
  C4_toc_list_check_fails_within_bound (fun _ => 0x80) 3 (by decide) (fun _ _ => (by decide : toc_get_f 0x80 ≠ 0))

/-! ## Reading a message -/

/-- Inside the message `byte` is the list element. -/
theorem mblk_t.byte_of_lt (im : mblk_t) (i : Nat) (h : i < im.data.length) :
    im.byte i = im.data[i] := by
  simp [mblk_t.byte, h]

/-- Past the end of the message `byte` is the following memory. -/
theorem mblk_t.byte_of_ge (im : mblk_t) (i : Nat) (h : im.data.length ≤ i) :
    im.byte i = im.past (i - im.data.length) := by
  simp [mblk_t.byte, Nat.not_lt.mpr h]

/-- A copy that stays inside the message copies a segment of the message. -/
theorem mblk_t.map_byte_range (im : mblk_t) (b n : Nat) (h : b + n ≤ im.data.length) :
    (List.range n).map (fun j => im.byte (b + j)) = (im.data.drop b).take n := by
  apply List.ext_getElem
  · simp; omega
  · intro k h1 h2
    simp only [List.length_map, List.length_range] at h1
    rw [List.getElem_map, List.getElem_range, List.getElem_take, List.getElem_drop,
      mblk_t.byte_of_lt im (b + k) (by omega)]

/-! ## Observations and concatenation -/

theorem blocks_append {β : Type} (a b : List (Event β)) :
    blocks (a ++ b) = blocks a ++ blocks b := by
  induction a with
  | nil => rfl
  | cons e a ih => cases e <;> simp [blocks, ih]

theorem units_append {β : Type} (a b : List (Event β)) :
    units (a ++ b) = units a ++ units b := by
  induction a with
  | nil => rfl
  | cons e a ih => cases e <;> simp [units, ih]

theorem toc_reads_append {β : Type} (a b : List (Event β)) :
    toc_reads (a ++ b) = toc_reads a ++ toc_reads b := by
  induction a with
  | nil => rfl
  | cons e a ih => cases e <;> simp [toc_reads, ih]

theorem toc_calls_append {β : Type} (a b : List (Event β)) :
    toc_calls (a ++ b) = toc_calls a + toc_calls b := by
  induction a with
  | nil => simp [toc_calls]
  | cons e a ih => cases e <;> simp [toc_calls, ih]; omega

theorem copies_append {β : Type} (a b : List (Event β)) :
    copies (a ++ b) = copies a ++ copies b := by
  induction a with
  | nil => rfl
  | cons e a ih => cases e <;> simp [copies, ih]

/-! ## The frame loop -/

/-- An entry with a reserved mode index stops the frame loop. -/
theorem dec_frames_bad_index {σ β : Type} (dec : σ → List Nat → σ × β) (im : mblk_t)
    (tocs n i b_rptr : Nat) (st : σ) (h : 9 ≤ toc_get_index (im.byte (tocs + i))) :
    dec_frames dec im tocs (n + 1) i b_rptr st
      = (st, [Event.ms_warning (Warning.bad_toc (toc_get_index (im.byte (tocs + i))))]) := by
  simp [dec_frames, h]

/-- An entry whose frame does not fit before `b_wptr` stops the frame loop. -/
theorem dec_frames_truncated {σ β : Type} (dec : σ → List Nat → σ × β) (im : mblk_t)
    (tocs n i b_rptr : Nat) (st : σ) (h : toc_get_index (im.byte (tocs + i)) < 9)
    (ht : im.data.length <
      b_rptr + amr_frame_sizes.getD (toc_get_index (im.byte (tocs + i))) 0) :
    dec_frames dec im tocs (n + 1) i b_rptr st
      = (st, [Event.ms_warning Warning.truncated_frame]) := by
  rw [dec_frames]
  simp only [ge_iff_le, Nat.not_le.mpr h, if_false, gt_iff_lt, ht, if_true]

/-- An entry with a valid mode whose frame is present is decoded, and the loop goes on. -/
theorem dec_frames_step {σ β : Type} (dec : σ → List Nat → σ × β) (im : mblk_t)
    (tocs n i b_rptr : Nat) (st : σ) (h : toc_get_index (im.byte (tocs + i)) < 9)
    (ht : b_rptr + amr_frame_sizes.getD (toc_get_index (im.byte (tocs + i))) 0
      ≤ im.data.length) :
    dec_frames dec im tocs (n + 1) i b_rptr st =
      ((dec_frames dec im tocs n (i + 1)
          (b_rptr + amr_frame_sizes.getD (toc_get_index (im.byte (tocs + i))) 0)
          (dec st (im.byte (tocs + i) :: (im.data.drop b_rptr).take
            (amr_frame_sizes.getD (toc_get_index (im.byte (tocs + i))) 0))).1).1,
        Event.memcpy b_rptr (amr_frame_sizes.getD (toc_get_index (im.byte (tocs + i))) 0) ::
        Event.Decoder_Interface_Decode (im.byte (tocs + i) :: (im.data.drop b_rptr).take
            (amr_frame_sizes.getD (toc_get_index (im.byte (tocs + i))) 0)) ::
        Event.ms_queue_put
          { pcm := (dec st (im.byte (tocs + i) :: (im.data.drop b_rptr).take
              (amr_frame_sizes.getD (toc_get_index (im.byte (tocs + i))) 0))).2,
            nbytes := nsamples * 2 } ::
        (dec_frames dec im tocs n (i + 1)
          (b_rptr + amr_frame_sizes.getD (toc_get_index (im.byte (tocs + i))) 0)
          (dec st (im.byte (tocs + i) :: (im.data.drop b_rptr).take
            (amr_frame_sizes.getD (toc_get_index (im.byte (tocs + i))) 0))).1).2) := by
  rw [dec_frames]
  simp only [ge_iff_le, Nat.not_le.mpr h, if_false, gt_iff_lt, Nat.not_lt.mpr ht,
    mblk_t.map_byte_range im b_rptr _ ht]

/-- Every block put on the output queue by the frame loop is the engine's result on the
unit of the same rank: blocks and engine calls correspond one to one, in order. -/
theorem dec_frames_blocks {σ β : Type} (dec : σ → List Nat → σ × β) (im : mblk_t)
    (tocs : Nat) : ∀ (n i b_rptr : Nat) (st : σ),
      blocks (dec_frames dec im tocs n i b_rptr st).2
        = decode_run dec st (units (dec_frames dec im tocs n i b_rptr st).2) := by
  intro n
  induction n with
  | zero => intro i b st; rfl
  | succ n ih =>
    intro i b st
    by_cases h : 9 ≤ toc_get_index (im.byte (tocs + i))
    · rw [dec_frames_bad_index dec im tocs n i b st h]; rfl
    · have h9 : toc_get_index (im.byte (tocs + i)) < 9 := Nat.lt_of_not_le h
      by_cases ht : im.data.length <
          b + amr_frame_sizes.getD (toc_get_index (im.byte (tocs + i))) 0
      · rw [dec_frames_truncated dec im tocs n i b st h9 ht]; rfl
      · rw [dec_frames_step dec im tocs n i b st h9 (Nat.le_of_not_lt ht)]
        simp only [blocks, units, decode_run, ih]

/-- Every block has the fixed size of one window, `nsamples*2` bytes. -/
theorem decode_run_nbytes {σ β : Type} (dec : σ → List Nat → σ × β) :
    ∀ (us : List (List Nat)) (st : σ), ∀ b ∈ decode_run dec st us, b.nbytes = nsamples * 2 := by
  intro us
  induction us with
  | nil => intro st b hb; simp [decode_run] at hb
  | cons u us ih =>
    intro st b hb
    simp only [decode_run, List.mem_cons] at hb
    rcases hb with rfl | hb
    · rfl
    · exact ih _ b hb

theorem decode_run_length {σ β : Type} (dec : σ → List Nat → σ × β) :
    ∀ (us : List (List Nat)) (st : σ), (decode_run dec st us).length = us.length := by
  intro us
  induction us with
  | nil => intro st; rfl
  | cons u us ih => intro st; simp [decode_run, ih]

/-- The frame loop on well-formed entries: `es` are the (TOC byte, frame) pairs still to
do, the TOC bytes sit at `tocs + i ..`, the frames at `b_rptr ..`. Every entry is copied
and decoded. -/
theorem dec_frames_entries {σ β : Type} (dec : σ → List Nat → σ × β) (im : mblk_t)
    (tocs : Nat) : ∀ (es : List (Nat × List Nat)) (i b_rptr : Nat) (st : σ) (tail : List Nat),
      (∀ j (h : j < es.length), im.byte (tocs + i + j) = es[j].1) →
      (∀ e ∈ es, toc_get_index e.1 < 9) →
      (∀ e ∈ es, e.2.length = amr_frame_sizes.getD (toc_get_index e.1) 0) →
      b_rptr ≤ im.data.length →
      im.data.drop b_rptr = (es.map Prod.snd).flatten ++ tail →
      units (dec_frames dec im tocs es.length i b_rptr st).2 = es.map (fun e => e.1 :: e.2) := by
  intro es
  induction es with
  | nil => intro i b st tail _ _ _ _ _; rfl
  | cons e es ih =>
    intro i b st tail htoc hmode hsize hb hdata
    have h0 : im.byte (tocs + i) = e.1 := by simpa using htoc 0 (by simp)
    have hm : toc_get_index (im.byte (tocs + i)) < 9 := by
      rw [h0]; exact hmode e (List.mem_cons_self _ _)
    have hs : e.2.length = amr_frame_sizes.getD (toc_get_index (im.byte (tocs + i))) 0 := by
      rw [h0]; exact hsize e (List.mem_cons_self _ _)
    have hdata2 : im.data.drop b = e.2 ++ ((es.map Prod.snd).flatten ++ tail) := by
      rw [hdata]; simp
    have hlen : (im.data.drop b).length = im.data.length - b := List.length_drop _ _
    have hfit : b + amr_frame_sizes.getD (toc_get_index (im.byte (tocs + i))) 0
        ≤ im.data.length := by
      rw [← hs]
      have : e.2.length ≤ (im.data.drop b).length := by rw [hdata2]; simp
      omega
    rw [List.length_cons, dec_frames_step dec im tocs es.length i b st hm hfit]
    simp only [units, List.map_cons]
    rw [← hs, hdata2, List.take_left, h0]
    congr 1
    apply ih (i + 1) (b + e.2.length) _ tail
    · intro j hj
      have := htoc (j + 1) (by simp; omega)
      simpa [Nat.add_assoc, Nat.add_comm 1 j] using this
    · exact fun x hx => hmode x (List.mem_cons_of_mem _ hx)
    · exact fun x hx => hsize x (List.mem_cons_of_mem _ hx)
    · rw [hs]; exact hfit
    · rw [← List.drop_drop, hdata2, List.drop_left]

/-! ## One message -/

/-- A message shorter than two bytes is freed at once. -/
theorem dec_process_msg_short {σ β : Type} (dec : σ → List Nat → σ × β) (st : σ)
    (im : mblk_t) (h : msgdsize im < 2) :
    dec_process_msg dec st im = some (st, [Event.freemsg]) := by
  simp [dec_process_msg, h]

/-- A message whose TOC scan returns `-1` is dropped with a warning. -/
theorem dec_process_msg_bad_toc {σ β : Type} (dec : σ → List Nat → σ × β) (st : σ)
    (im : mblk_t) (reads : List Nat) (h : 2 ≤ msgdsize im)
    (hscan : toc_list_check (fun k => im.byte (1 + k)) (msgdsize im) = some (-1, reads)) :
    dec_process_msg dec st im = some (st,
      [Event.toc_list_check (msgdsize im) (reads.map (fun k => 1 + k)) (-1),
        Event.ms_warning Warning.bad_toc_list, Event.freemsg]) := by
  simp [dec_process_msg, Nat.not_lt.mpr h, hscan]

/-- A message whose TOC scan returns `toclen` goes through the frame loop. -/
theorem dec_process_msg_frames {σ β : Type} (dec : σ → List Nat → σ × β) (st : σ)
    (im : mblk_t) (toclen : Nat) (reads : List Nat) (h : 2 ≤ msgdsize im)
    (hscan : toc_list_check (fun k => im.byte (1 + k)) (msgdsize im)
      = some ((toclen : Int), reads)) :
    dec_process_msg dec st im = some ((dec_frames dec im 1 toclen 0 (1 + toclen) st).1,
      Event.toc_list_check (msgdsize im) (reads.map (fun k => 1 + k)) toclen ::
        (dec_frames dec im 1 toclen 0 (1 + toclen) st).2 ++ [Event.freemsg]) := by
  have hne : ¬ ((toclen : Int) = -1) := by omega
  simp [dec_process_msg, Nat.not_lt.mpr h, hscan, hne]

/-- The body of the loop always completes: the TOC scan never runs out of steps. -/
theorem dec_process_msg_total {σ β : Type} (dec : σ → List Nat → σ × β) (st : σ)
    (im : mblk_t) : ∃ r, dec_process_msg dec st im = some r := by
  by_cases h : msgdsize im < 2
  · exact ⟨_, dec_process_msg_short dec st im h⟩
  · obtain ⟨⟨toclen, reads⟩, hr⟩ :=
      toc_list_check_total (fun k => im.byte (1 + k)) (msgdsize im)
    by_cases h1 : toclen = -1
    · simp [dec_process_msg, h, hr, h1]
    · simp [dec_process_msg, h, hr, h1]

/-- The function `dec_process` always completes. -/
theorem dec_process_total {σ β : Type} (dec : σ → List Nat → σ × β) :
    ∀ (q : List mblk_t) (st : σ), ∃ r, dec_process dec st q = some r := by
  intro q
  induction q with
  | nil => intro st; exact ⟨_, rfl⟩
  | cons im q ih =>
    intro st
    obtain ⟨r, hr⟩ := dec_process_msg_total dec st im
    obtain ⟨r2, hr2⟩ := ih r.1
    exact ⟨(r2.1, r.2 ++ r2.2), by simp [dec_process, hr, hr2]⟩

/-- Processing a queue is processing its first message and then the rest. -/
theorem dec_process_cons {σ β : Type} (dec : σ → List Nat → σ × β) (st : σ) (im : mblk_t)
    (q : List mblk_t) (r r2 : σ × List (Event β)) (h : dec_process_msg dec st im = some r)
    (h2 : dec_process dec r.1 q = some r2) :
    dec_process dec st (im :: q) = some (r2.1, r.2 ++ r2.2) := by
  simp [dec_process, h, h2]

/-- A queue of one message. -/
theorem dec_process_single {σ β : Type} (dec : σ → List Nat → σ × β) (st : σ) (im : mblk_t)
    (r : σ × List (Event β)) (h : dec_process_msg dec st im = some r) :
    dec_process dec st [im] = some r := by
  simp [dec_process, h]

/-! ## Well-formed messages -/

/-- In a concatenation of frames, frame `i` starts after the frames before it. -/
theorem flatten_drop_take {α : Type} : ∀ (fs : List (List α)) (i : Nat) (h : i < fs.length),
    (fs.flatten.drop ((fs.take i).map List.length).sum).take fs[i].length = fs[i] := by
  intro fs
  induction fs with
  | nil => intro i h; simp at h
  | cons f fs ih =>
    intro i h
    cases i with
    | zero => simp
    | succ i =>
      have := ih i (by simpa using h)
      simpa [List.drop_append] using this

/-- The TOC byte of entry `j` of a message laid out as header, TOC bytes, rest. -/
theorem toc_byte_of_layout (hdr : Nat) (es : List (Nat × List Nat)) (rest : List Nat)
    (past : Nat → Nat) (j : Nat) (h : j < es.length) :
    mblk_t.byte { data := hdr :: (es.map Prod.fst ++ rest), past := past } (1 + j)
      = es[j].1 := by
  rw [mblk_t.byte_of_lt _ _ (by simp; omega)]
  simp only [Nat.add_comm 1 j, List.getElem_cons_succ]
  rw [List.getElem_append_left (by simpa using h), List.getElem_map]

/-- The TOC scan of a message whose entries carry the continuation flag on all but the
last entry returns the number of entries. -/
theorem toc_list_check_of_layout (hdr : Nat) (es : List (Nat × List Nat)) (rest : List Nat)
    (past : Nat → Nat) (hne : es ≠ [])
    (hflag : ∀ i (h : i < es.length), toc_get_f es[i].1 = 0 ↔ i + 1 = es.length) :
    toc_list_check
      (fun k => mblk_t.byte { data := hdr :: (es.map Prod.fst ++ rest), past := past } (1 + k))
      (msgdsize { data := hdr :: (es.map Prod.fst ++ rest), past := past })
      = some ((es.length : Int), List.range' 0 es.length) := by
  have hpos : 0 < es.length := List.length_pos.mpr hne
  have h := toc_list_check_loop_stop
    (fun k => mblk_t.byte { data := hdr :: (es.map Prod.fst ++ rest), past := past } (1 + k))
    (msgdsize { data := hdr :: (es.map Prod.fst ++ rest), past := past })
    (es.length - 1)
    (msgdsize { data := hdr :: (es.map Prod.fst ++ rest), past := past } + 1) 0 1
    (by simp [msgdsize]; omega) (by simp [msgdsize]; omega)
    (fun j hj => by
      simp only [Nat.zero_add]
      rw [toc_byte_of_layout hdr es rest past j (by omega)]
      intro hz
      have := (hflag j (by omega)).mp hz
      omega)
    (by
      simp only [Nat.zero_add]
      rw [toc_byte_of_layout hdr es rest past (es.length - 1) (by omega)]
      exact (hflag (es.length - 1) (by omega)).mpr (by omega))
  rw [toc_list_check, h]
  have e1 : 1 + (es.length - 1) = es.length := by omega
  have e2 : es.length - 1 + 1 = es.length := by omega
  rw [e1, e2]

/-- C1: a message made of a header byte, the TOC bytes of `n >= 1` entries (continuation
flag clear on the last entry only, every mode index in `0..8`) and then the frames, frame
`i` holding exactly `amr_frame_sizes[mode_i]` bytes, is decoded completely. `dec_process`
returns; the units handed to the engine are, in TOC order, TOC byte `i` followed by frame
`i`; unit `i` is TOC byte `i` followed by the `amr_frame_sizes[mode_i]` message bytes that
start at offset `1 + n + (sum of the sizes before i)` and has length
`1 + amr_frame_sizes[mode_i]`; exactly `n` blocks are put on the output queue, each the
engine's result on the unit of the same rank, each of `160` samples (`320` bytes). -/
theorem C1_wellformed_message_decodes_every_frame {σ β : Type} (dec : σ → List Nat → σ × β)
    (st : σ) (hdr : Nat) (es : List (Nat × List Nat)) (past : Nat → Nat) (hne : es ≠ [])
    (hflag : ∀ i (h : i < es.length), toc_get_f es[i].1 = 0 ↔ i + 1 = es.length)
    (hmode : ∀ e ∈ es, toc_get_index e.1 ≤ 8)
    (hsize : ∀ e ∈ es, e.2.length = amr_frame_sizes.getD (toc_get_index e.1) 0) :
    ∃ r, dec_process dec st
        [{ data := hdr :: (es.map Prod.fst ++ (es.map Prod.snd).flatten), past := past }]
          = some r ∧
      units r.2 = es.map (fun e => e.1 :: e.2) ∧
      (∀ i (h : i < es.length), (units r.2)[i]? = some (es[i].1 ::
        ((hdr :: (es.map Prod.fst ++ (es.map Prod.snd).flatten)).drop
          (1 + es.length +
            ((es.take i).map (fun e => amr_frame_sizes.getD (toc_get_index e.1) 0)).sum)).take
          (amr_frame_sizes.getD (toc_get_index es[i].1) 0)) ∧
        ((hdr :: (es.map Prod.fst ++ (es.map Prod.snd).flatten)).drop
          (1 + es.length +
            ((es.take i).map (fun e => amr_frame_sizes.getD (toc_get_index e.1) 0)).sum)).take
          (amr_frame_sizes.getD (toc_get_index es[i].1) 0) = es[i].2 ∧
        (es[i].1 :: es[i].2).length = 1 + amr_frame_sizes.getD (toc_get_index es[i].1) 0) ∧
      blocks r.2 = decode_run dec st (units r.2) ∧
      (blocks r.2).length = es.length ∧
      ∀ b ∈ blocks r.2, b.nbytes = 160 * 2 := by
  have hlen : 2 ≤ msgdsize
      { data := hdr :: (es.map Prod.fst ++ (es.map Prod.snd).flatten), past := past } := by
    have : 0 < es.length := List.length_pos.mpr hne
    simp [msgdsize]; omega
  have hscan := toc_list_check_of_layout hdr es (es.map Prod.snd).flatten past hne hflag
  have hmsg := dec_process_msg_frames dec st _ es.length _ hlen hscan
  have hunits := dec_frames_entries dec
    { data := hdr :: (es.map Prod.fst ++ (es.map Prod.snd).flatten), past := past } 1 es 0
    (1 + es.length) st []
    (fun j h => by
      simpa using toc_byte_of_layout hdr es (es.map Prod.snd).flatten past j h)
    (fun e he => Nat.lt_succ_of_le (hmode e he)) hsize
    (by simp; omega)
    (by simp [Nat.add_comm 1 es.length, List.drop_append])
  have hblocks := dec_frames_blocks dec
    { data := hdr :: (es.map Prod.fst ++ (es.map Prod.snd).flatten), past := past } 1 es.length
    0 (1 + es.length) st
  have hU : units (Event.toc_list_check
        (msgdsize { data := hdr :: (es.map Prod.fst ++ (es.map Prod.snd).flatten), past := past })
        ((List.range' 0 es.length).map (fun k => 1 + k)) (es.length : Int) ::
      (dec_frames dec
        { data := hdr :: (es.map Prod.fst ++ (es.map Prod.snd).flatten), past := past } 1
        es.length 0 (1 + es.length) st).2 ++ [Event.freemsg])
      = es.map (fun e => e.1 :: e.2) := by
    simp [units, units_append, hunits]
  have hB : blocks (Event.toc_list_check
        (msgdsize { data := hdr :: (es.map Prod.fst ++ (es.map Prod.snd).flatten), past := past })
        ((List.range' 0 es.length).map (fun k => 1 + k)) (es.length : Int) ::
      (dec_frames dec
        { data := hdr :: (es.map Prod.fst ++ (es.map Prod.snd).flatten), past := past } 1
        es.length 0 (1 + es.length) st).2 ++ [Event.freemsg])
      = decode_run dec st (es.map (fun e => e.1 :: e.2)) := by
    simp [blocks, blocks_append, hblocks, hunits]
  refine ⟨_, dec_process_single dec st _ _ hmsg, hU, ?_, ?_, ?_, ?_⟩
  · intro i h
    have hsum : ((es.take i).map (fun e => amr_frame_sizes.getD (toc_get_index e.1) 0)).sum
        = (((es.map Prod.snd).take i).map List.length).sum := by
      rw [← List.map_take, List.map_map]
      congr 1
      apply List.map_congr_left
      intro e he
      simpa using (hsize e (List.mem_of_mem_take he)).symm
    have hseg : ((hdr :: (es.map Prod.fst ++ (es.map Prod.snd).flatten)).drop
          (1 + es.length +
            ((es.take i).map (fun e => amr_frame_sizes.getD (toc_get_index e.1) 0)).sum)).take
          (amr_frame_sizes.getD (toc_get_index es[i].1) 0) = es[i].2 := by
      have hfl := flatten_drop_take (es.map Prod.snd) i (by simpa using h)
      rw [hsum, ← hsize es[i] (List.getElem_mem h)]
      have hd : (hdr :: (es.map Prod.fst ++ (es.map Prod.snd).flatten)).drop
          (1 + es.length + (((es.map Prod.snd).take i).map List.length).sum)
          = (es.map Prod.snd).flatten.drop (((es.map Prod.snd).take i).map List.length).sum := by
        rw [Nat.add_assoc, Nat.add_comm 1, List.drop_succ_cons]
        have : es.length = (es.map Prod.fst).length := by simp
        rw [this, List.drop_append]
      rw [hd]
      simpa using hfl
    refine ⟨?_, hseg, ?_⟩
    · rw [hU, hseg]; simp [h]
    · rw [List.length_cons, hsize es[i] (List.getElem_mem h)]; omega
  · rw [hB, hU]
  · rw [hB, decode_run_length]; simp
  · intro b hb
    rw [hB] at hb
    simpa [nsamples] using decode_run_nbytes dec _ st b hb

/-- Witness of C1: header byte, one TOC byte of mode 7 with the continuation flag clear,
31 frame bytes: one block, and the engine receives the 32-byte unit. -/
theorem C1_wellformed_message_decodes_every_frame_witness :
    ∃ r, dec_process (fun (s : Nat) (u : List Nat) => (s + 1, u.length)) 0
        [{ data := 0xf0 :: ([(0x3c, List.replicate 31 0xaa)].map Prod.fst ++
              ([(0x3c, List.replicate 31 0xaa)].map Prod.snd).flatten),
           past := fun _ => 0 }] = some r ∧
      units r.2 = [0x3c :: List.replicate 31 0xaa] ∧
      (blocks r.2).length = 1 ∧ (units r.2).map List.length = [32] := by
  obtain ⟨r, h1, h2, _, _, h5, _⟩ := C1_wellformed_message_decodes_every_frame
    (fun (s : Nat) (u : List Nat) => (s + 1, u.length)) 0 0xf0
    [(0x3c, List.replicate 31 0xaa)] (fun _ => 0) (by simp) (by decide) (by decide) (by decide)
  exact ⟨r, h1, by simpa using h2, by simpa using h5, by rw [h2]; rfl⟩

/-! ## The frame loop on an arbitrary message -/

/-- No frame copy reaches beyond `b_wptr`. -/
theorem dec_frames_copies_in_bounds {σ β : Type} (dec : σ → List Nat → σ × β) (im : mblk_t)
    (tocs : Nat) : ∀ (n i b_rptr : Nat) (st : σ),
      ∀ c ∈ copies (dec_frames dec im tocs n i b_rptr st).2, c.1 + c.2 ≤ im.data.length := by
  intro n
  induction n with
  | zero => intro i b st c hc; simp [dec_frames, copies] at hc
  | succ n ih =>
    intro i b st c hc
    by_cases h : 9 ≤ toc_get_index (im.byte (tocs + i))
    · rw [dec_frames_bad_index dec im tocs n i b st h] at hc; simp [copies] at hc
    · have h9 : toc_get_index (im.byte (tocs + i)) < 9 := Nat.lt_of_not_le h
      by_cases ht : im.data.length <
          b + amr_frame_sizes.getD (toc_get_index (im.byte (tocs + i))) 0
      · rw [dec_frames_truncated dec im tocs n i b st h9 ht] at hc; simp [copies] at hc
      · rw [dec_frames_step dec im tocs n i b st h9 (Nat.le_of_not_lt ht)] at hc
        simp only [copies, List.mem_cons] at hc
        rcases hc with rfl | hc
        · exact Nat.le_of_not_lt ht
        · exact ih _ _ _ c hc

/-- The frame loop started at entry `i` with the cursor at `frame_offset i` decodes the
next `k` entries when their modes are valid and their frames are present, and then goes on
from entry `i + k`. -/
theorem dec_frames_prefix {σ β : Type} (dec : σ → List Nat → σ × β) (im : mblk_t)
    (toclen : Nat) : ∀ (k n i : Nat) (st : σ),
      (∀ j, i ≤ j → j < i + k → toc_get_index (im.byte (1 + j)) < 9) →
      (∀ j, i ≤ j → j < i + k → frame_offset im toclen (j + 1) ≤ im.data.length) →
      ∃ (st' : σ) (pre : List (Event β)),
        dec_frames dec im 1 (k + n) i (frame_offset im toclen i) st
          = ((dec_frames dec im 1 n (i + k) (frame_offset im toclen (i + k)) st').1,
              pre ++ (dec_frames dec im 1 n (i + k) (frame_offset im toclen (i + k)) st').2) ∧
        units pre = (List.range' i k).map (frame_unit im toclen) ∧
        blocks pre = decode_run dec st (units pre) := by
  intro k
  induction k with
  | zero =>
    intro n i st _ _
    exact ⟨st, [], by simp, rfl, rfl⟩
  | succ k ih =>
    intro n i st hmode hfit
    have hm := hmode i (Nat.le_refl _) (by omega)
    have hf : frame_offset im toclen i
        + amr_frame_sizes.getD (toc_get_index (im.byte (1 + i))) 0 ≤ im.data.length :=
      hfit i (Nat.le_refl _) (by omega)
    obtain ⟨st', pre, h1, h2, h3⟩ := ih n (i + 1)
      (dec st (frame_unit im toclen i)).1
      (fun j h1 h2 => hmode j (by omega) (by omega))
      (fun j h1 h2 => hfit j (by omega) (by omega))
    have e1 : k + 1 + n = (k + n) + 1 := by omega
    have e2 : i + 1 + k = i + (k + 1) := by omega
    rw [e2] at h1
    refine ⟨st', Event.memcpy (frame_offset im toclen i)
        (amr_frame_sizes.getD (toc_get_index (im.byte (1 + i))) 0) ::
      Event.Decoder_Interface_Decode (frame_unit im toclen i) ::
      Event.ms_queue_put { pcm := (dec st (frame_unit im toclen i)).2, nbytes := nsamples * 2 } ::
      pre, ?_, ?_, ?_⟩
    · rw [e1, dec_frames_step dec im 1 (k + n) i _ st hm hf]
      have hstep : frame_offset im toclen i
          + amr_frame_sizes.getD (toc_get_index (im.byte (1 + i))) 0
          = frame_offset im toclen (i + 1) := rfl
      rw [hstep]
      have hu : (im.byte (1 + i) :: (im.data.drop (frame_offset im toclen i)).take
          (amr_frame_sizes.getD (toc_get_index (im.byte (1 + i))) 0))
          = frame_unit im toclen i := rfl
      rw [hu, h1]
      rfl
    · simp only [units, h2, List.range'_succ, List.map_cons]
    · simp only [blocks, units, decode_run, h3]

/-! ## The claims on `dec_process` -/

/-- C2: the TOC scan of `dec_process` is bounded by the length of the whole message
although it starts after the header byte. On the two-byte message `[0xf0, 0xb8]` (one TOC
byte, continuation flag set) it dereferences offsets `1` and `2`; offset `2` is the byte
after the message. When that byte has its flag clear the scan returns `2` instead of
failing; when it has its flag set the scan fails, after having read it. -/
theorem C2_toc_scan_reads_one_byte_past_message :
    msgdsize { data := [0xf0, 0xb8], past := fun _ => 0x3c } = 2 ∧
    dec_process (fun (s : Nat) (_ : List Nat) => (s + 1, s)) 0
        [{ data := [0xf0, 0xb8], past := fun _ => 0x3c }]
      = some (0, [Event.toc_list_check 2 [1, 2] 2,
          Event.ms_warning Warning.truncated_frame, Event.freemsg]) ∧
    dec_process (fun (s : Nat) (_ : List Nat) => (s + 1, s)) 0
        [{ data := [0xf0, 0xb8], past := fun _ => 0x80 }]
      = some (0, [Event.toc_list_check 2 [1, 2] (-1),
          Event.ms_warning Warning.bad_toc_list, Event.freemsg]) := by
  refine ⟨rfl, ?_, ?_⟩ <;> rfl

/-- C5: for the TOC byte `t` of any entry the frame loop reaches, the mode index is
`(t >> 3) & 0xF`, a number below 16. For an index `k` in `0..8` the frame size used is
`12,13,15,17,19,20,26,31,5` respectively: the loop either copies exactly that many bytes
from the cursor and decodes them, or stops with the truncated-frame warning when that many
bytes are not left. For an index in `9..15` the loop stops with the bad-TOC warning and
nothing else: no table entry is used, no byte is copied, the engine is not called. -/
theorem C5_mode_index_and_frame_size {σ β : Type} (dec : σ → List Nat → σ × β) (im : mblk_t)
    (tocs n i b_rptr : Nat) (st : σ) :
    toc_get_index (im.byte (tocs + i)) = (im.byte (tocs + i) >>> 3) &&& 0xF ∧
    toc_get_index (im.byte (tocs + i)) = im.byte (tocs + i) / 8 % 16 ∧
    toc_get_index (im.byte (tocs + i)) < 16 ∧
    (∀ k, k ≤ 8 → toc_get_index (im.byte (tocs + i)) = k →
      (b_rptr + ([12, 13, 15, 17, 19, 20, 26, 31, 5] : List Nat).getD k 0 ≤ im.data.length →
        ∃ (st' : σ) (om : PcmBlock β) (rest : List (Event β)),
          dec_frames dec im tocs (n + 1) i b_rptr st
          = (st', Event.memcpy b_rptr (([12, 13, 15, 17, 19, 20, 26, 31, 5] : List Nat).getD k 0) ::
              Event.Decoder_Interface_Decode (im.byte (tocs + i) :: (im.data.drop b_rptr).take
                (([12, 13, 15, 17, 19, 20, 26, 31, 5] : List Nat).getD k 0)) ::
              Event.ms_queue_put om :: rest)) ∧
      (im.data.length < b_rptr + ([12, 13, 15, 17, 19, 20, 26, 31, 5] : List Nat).getD k 0 →
        dec_frames dec im tocs (n + 1) i b_rptr st
          = (st, [Event.ms_warning Warning.truncated_frame]))) ∧
    (9 ≤ toc_get_index (im.byte (tocs + i)) →
      dec_frames dec im tocs (n + 1) i b_rptr st
        = (st, [Event.ms_warning (Warning.bad_toc (toc_get_index (im.byte (tocs + i))))]) ∧
      copies (dec_frames dec im tocs (n + 1) i b_rptr st).2 = [] ∧
      units (dec_frames dec im tocs (n + 1) i b_rptr st).2 = []) := by
  have hidx : toc_get_index (im.byte (tocs + i)) = im.byte (tocs + i) / 8 % 16 := by
    unfold toc_get_index
    rw [Nat.shiftRight_eq_div_pow]
    exact Nat.and_pow_two_sub_one_eq_mod _ 4
  refine ⟨rfl, hidx, ?_, ?_, ?_⟩
  · rw [hidx]; exact Nat.mod_lt _ (by decide)
  · intro k hk hik
    have htab : amr_frame_sizes.getD (toc_get_index (im.byte (tocs + i))) 0
        = ([12, 13, 15, 17, 19, 20, 26, 31, 5] : List Nat).getD k 0 := by
      rw [hik]; interval_cases k <;> rfl
    have h9 : toc_get_index (im.byte (tocs + i)) < 9 := by omega
    constructor
    · intro hfit
      rw [← htab] at hfit ⊢
      rw [dec_frames_step dec im tocs n i b_rptr st h9 hfit]
      exact ⟨_, _, _, rfl⟩
    · intro htr
      rw [← htab] at htr
      exact dec_frames_truncated dec im tocs n i b_rptr st h9 htr
  · intro h
    rw [dec_frames_bad_index dec im tocs n i b_rptr st h]
    exact ⟨rfl, rfl, rfl⟩

/-- Witness of C5: TOC byte `0x3c` (mode 7) takes 31 bytes, TOC byte `0x4c` (mode 9) is
rejected. -/
theorem C5_mode_index_and_frame_size_witness :
    toc_get_index 0x3c = 7 ∧ toc_get_index 0x4c = 9 ∧
    (units (dec_frames (fun (s : Nat) (_ : List Nat) => (s + 1, s))
      { data := 0xf0 :: 0x3c :: List.replicate 31 1, past := fun _ => 0 } 1 1 0 2 0).2).map
        List.length = [32] ∧
    dec_frames (fun (s : Nat) (_ : List Nat) => (s + 1, s))
      { data := 0xf0 :: 0x4c :: List.replicate 31 1, past := fun _ => 0 } 1 1 0 2 0
        = (0, [Event.ms_warning (Warning.bad_toc 9)]) := by
  refine ⟨by decide, by decide, by decide, ?_⟩
  exact ((C5_mode_index_and_frame_size (fun (s : Nat) (_ : List Nat) => (s + 1, s))
    { data := 0xf0 :: 0x4c :: List.replicate 31 1, past := fun _ => 0 } 1 0 0 2 0).2.2.2.2
      (by decide)).1

/-- The copies of a whole queue stay inside their messages as soon as those of every
message do; for one message this is the bound of the frame loop. -/
theorem dec_process_msg_copies_in_bounds {σ β : Type} (dec : σ → List Nat → σ × β) (st : σ)
    (im : mblk_t) (r : σ × List (Event β)) (h : dec_process_msg dec st im = some r) :
    ∀ c ∈ copies r.2, c.1 + c.2 ≤ msgdsize im := by
  by_cases hs : msgdsize im < 2
  · rw [dec_process_msg_short dec st im hs] at h
    cases h; intro c hc; simp [copies] at hc
  · obtain ⟨⟨toclen, reads⟩, hr⟩ :=
      toc_list_check_total (fun k => im.byte (1 + k)) (msgdsize im)
    by_cases h1 : toclen = -1
    · simp only [dec_process_msg, hs, if_false, hr, h1, if_true] at h
      cases h; intro c hc; simp [copies] at hc
    · simp only [dec_process_msg, hs, if_false, hr, h1] at h
      cases h
      intro c hc
      have hc2 : c ∈ copies (dec_frames dec im 1 toclen.toNat 0 (1 + toclen.toNat) st).2 := by
        have e : copies (Event.toc_list_check (msgdsize im) (reads.map (fun k => 1 + k)) toclen ::
            (dec_frames dec im 1 toclen.toNat 0 (1 + toclen.toNat) st).2 ++ [Event.freemsg])
            = copies (dec_frames dec im 1 toclen.toNat 0 (1 + toclen.toNat) st).2 := by
          simp [copies, copies_append]
        rw [← e]; exact hc
      exact dec_frames_copies_in_bounds dec im 1 _ _ _ _ c hc2

/-- A message whose first `k` entries are decodable and whose frame loop stops with a
warning at entry `k`: exactly the first `k` units are decoded. -/
theorem dec_process_stops_at {σ β : Type} (dec : σ → List Nat → σ × β)
    (st : σ) (im : mblk_t) (toclen k : Nat) (reads : List Nat) (hlen : 2 ≤ msgdsize im)
    (hscan : toc_list_check (fun j => im.byte (1 + j)) (msgdsize im)
      = some ((toclen : Int), reads))
    (hk : k < toclen)
    (hgood : ∀ j, j < k → toc_get_index (im.byte (1 + j)) ≤ 8)
    (hpresent : ∀ j, j < k → frame_offset im toclen (j + 1) ≤ msgdsize im)
    (hstop : ∀ (st' : σ) (m : Nat), ∃ w,
      dec_frames dec im 1 (m + 1) k (frame_offset im toclen k) st'
        = (st', [Event.ms_warning w])) :
    ∃ r, dec_process dec st [im] = some r ∧
      units r.2 = (List.range k).map (frame_unit im toclen) ∧
      blocks r.2 = decode_run dec st (units r.2) ∧
      (blocks r.2).length = k ∧
      ∀ c ∈ copies r.2, c.1 + c.2 ≤ msgdsize im := by
  obtain ⟨m, rfl⟩ : ∃ m, toclen = k + (m + 1) := ⟨toclen - k - 1, by omega⟩
  have hmsg := dec_process_msg_frames dec st im (k + (m + 1)) reads hlen hscan
  obtain ⟨st', pre, h1, h2, h3⟩ := dec_frames_prefix dec im (k + (m + 1)) k (m + 1) 0 st
    (fun j _ hj => Nat.lt_succ_of_le (hgood j (by omega)))
    (fun j _ hj => hpresent j (by omega))
  obtain ⟨w, hw⟩ := hstop st' m
  simp only [Nat.zero_add] at h1
  rw [hw] at h1
  have h0 : frame_offset im (k + (m + 1)) 0 = 1 + (k + (m + 1)) := rfl
  rw [h0] at h1
  rw [h1] at hmsg
  have hU : units (Event.toc_list_check (msgdsize im) (reads.map (fun k => 1 + k))
      ((k + (m + 1) : Nat) : Int) :: (pre ++ [Event.ms_warning w]) ++ [Event.freemsg])
      = (List.range k).map (frame_unit im (k + (m + 1))) := by
    simp [units, units_append, h2, List.range_eq_range']
  have hB : blocks (Event.toc_list_check (msgdsize im) (reads.map (fun k => 1 + k))
      ((k + (m + 1) : Nat) : Int) :: (pre ++ [Event.ms_warning w]) ++ [Event.freemsg])
      = decode_run dec st ((List.range k).map (frame_unit im (k + (m + 1)))) := by
    simp [blocks, blocks_append, h3, h2, List.range_eq_range']
  refine ⟨_, dec_process_single dec st im _ hmsg, hU, ?_, ?_, ?_⟩
  · rw [hB, hU]
  · rw [hB, decode_run_length]; simp
  · exact dec_process_msg_copies_in_bounds dec st im _ hmsg

/-- C6: in a message whose TOC list parses into `toclen` entries, let entry `k` be the
first whose mode index is in `9..15`, the frames of the entries before it being present.
Then `dec_process` hands to the engine exactly the units of entries `0..k-1`, in order,
puts exactly `k` blocks on the output queue, the engine's results on these units, and
nothing for entry `k` or a later entry, whatever the later entries are. -/
theorem C6_invalid_mode_keeps_earlier_frames {σ β : Type} (dec : σ → List Nat → σ × β)
    (st : σ) (im : mblk_t) (toclen k : Nat) (reads : List Nat) (hlen : 2 ≤ msgdsize im)
    (hscan : toc_list_check (fun j => im.byte (1 + j)) (msgdsize im)
      = some ((toclen : Int), reads))
    (hk : k < toclen)
    (hgood : ∀ j, j < k → toc_get_index (im.byte (1 + j)) ≤ 8)
    (hbad : 9 ≤ toc_get_index (im.byte (1 + k)))
    (hpresent : ∀ j, j < k → frame_offset im toclen (j + 1) ≤ msgdsize im) :
    ∃ r, dec_process dec st [im] = some r ∧
      units r.2 = (List.range k).map (frame_unit im toclen) ∧
      blocks r.2 = decode_run dec st (units r.2) ∧
      (blocks r.2).length = k := by
  obtain ⟨r, h1, h2, h3, h4, _⟩ := dec_process_stops_at dec st im toclen k reads hlen hscan hk
    hgood hpresent
    (fun st' m => ⟨_, dec_frames_bad_index dec im 1 m k (frame_offset im toclen k) st' hbad⟩)
  exact ⟨r, h1, h2, h3, h4⟩

/-- Witness of C6: three entries of modes 8, 9, 8 with all frames present; only the first
is decoded. -/
theorem C6_invalid_mode_keeps_earlier_frames_witness :
    ∃ r, dec_process (fun (s : Nat) (_ : List Nat) => (s + 1, s)) 0
        [{ data := [0xf0, 0xc0, 0xc8, 0x40, 1, 2, 3, 4, 5, 6, 7, 8, 9, 10, 11, 12, 13, 14, 15],
           past := fun _ => 0 }] = some r ∧
      units r.2 = [[0xc0, 1, 2, 3, 4, 5]] ∧ (blocks r.2).length = 1 := by
  obtain ⟨r, h1, h2, _, h4⟩ := C6_invalid_mode_keeps_earlier_frames
    (fun (s : Nat) (_ : List Nat) => (s + 1, s)) 0
    { data := [0xf0, 0xc0, 0xc8, 0x40, 1, 2, 3, 4, 5, 6, 7, 8, 9, 10, 11, 12, 13, 14, 15],
      past := fun _ => 0 } 3 1 [0, 1, 2] (by decide) (by decide) (by decide) (by decide)
    (by decide) (by decide)
  exact ⟨r, h1, by rw [h2]; decide, h4⟩

/-- C7: in a message whose TOC list parses into `toclen` entries, let entry `k` be the
first whose frame size exceeds the bytes left after the read cursor, the entries before it
having valid modes and their frames being present. Then `dec_process` hands to the engine
exactly the units of entries `0..k-1`, puts exactly `k` blocks on the output queue, nothing
for entry `k` or a later entry, and every frame copy lies inside the message. -/
theorem C7_truncated_frame_stops_the_message {σ β : Type} (dec : σ → List Nat → σ × β)
    (st : σ) (im : mblk_t) (toclen k : Nat) (reads : List Nat) (hlen : 2 ≤ msgdsize im)
    (hscan : toc_list_check (fun j => im.byte (1 + j)) (msgdsize im)
      = some ((toclen : Int), reads))
    (hk : k < toclen)
    (hgood : ∀ j, j < k → toc_get_index (im.byte (1 + j)) ≤ 8)
    (hpresent : ∀ j, j < k → frame_offset im toclen (j + 1) ≤ msgdsize im)
    (hmode : toc_get_index (im.byte (1 + k)) ≤ 8)
    (htrunc : msgdsize im <
      frame_offset im toclen k + amr_frame_sizes.getD (toc_get_index (im.byte (1 + k))) 0) :
    ∃ r, dec_process dec st [im] = some r ∧
      units r.2 = (List.range k).map (frame_unit im toclen) ∧
      blocks r.2 = decode_run dec st (units r.2) ∧
      (blocks r.2).length = k ∧
      ∀ c ∈ copies r.2, c.1 + c.2 ≤ msgdsize im :=
  dec_process_stops_at dec st im toclen k reads hlen hscan hk hgood hpresent
    (fun st' m => ⟨_, dec_frames_truncated dec im 1 m k (frame_offset im toclen k) st'
      (Nat.lt_succ_of_le hmode) htrunc⟩)

/-- Witness of C7: one TOC byte of mode 7 (31 bytes) followed by only 20 bytes: no block. -/
theorem C7_truncated_frame_stops_the_message_witness :
    ∃ r, dec_process (fun (s : Nat) (_ : List Nat) => (s + 1, s)) 0
        [{ data := 0xf0 :: 0x3c :: List.replicate 20 0x55, past := fun _ => 0 }] = some r ∧
      units r.2 = [] ∧ (blocks r.2).length = 0 ∧ copies r.2 = [] := by
  obtain ⟨r, h1, h2, _, h4, _⟩ := C7_truncated_frame_stops_the_message
    (fun (s : Nat) (_ : List Nat) => (s + 1, s)) 0
    { data := 0xf0 :: 0x3c :: List.replicate 20 0x55, past := fun _ => 0 } 1 0 [0]
    (by decide) (by decide) (by decide) (by decide) (by decide) (by decide) (by decide)
  refine ⟨r, h1, by simpa using h2, h4, ?_⟩
  have h5 : dec_process (fun (s : Nat) (_ : List Nat) => (s + 1, s)) 0
      [{ data := 0xf0 :: 0x3c :: List.replicate 20 0x55, past := fun _ => 0 }]
      = some (0, [Event.toc_list_check 22 [1] 1, Event.ms_warning Warning.truncated_frame,
          Event.freemsg]) := rfl
  rw [h5] at h1
  cases h1
  rfl

/-- C8: a message of length `L >= 2` in which every byte after the header byte has the
continuation flag set is discarded, whatever byte follows the message in memory:
`dec_process` returns, puts no block on the output queue, never calls the engine (its
state is unchanged), copies nothing, and frees the message. -/
theorem C8_unterminated_toc_drops_message {σ β : Type} (dec : σ → List Nat → σ × β)
    (st : σ) (im : mblk_t) (hlen : 2 ≤ msgdsize im)
    (hset : ∀ j, 1 ≤ j → j < msgdsize im → toc_get_f (im.byte j) ≠ 0) :
    ∃ r, dec_process dec st [im] = some r ∧ r.1 = st ∧
      blocks r.2 = [] ∧ units r.2 = [] ∧ copies r.2 = [] ∧
      r.2.getLast? = some Event.freemsg := by
  obtain ⟨d, hd⟩ : ∃ d, msgdsize im = d + 1 := ⟨msgdsize im - 1, by omega⟩
  by_cases hp : toc_get_f (im.byte (msgdsize im)) = 0
  · -- the byte after the message ends the scan: `toclen` is the message length
    have hscan : toc_list_check (fun k => im.byte (1 + k)) (msgdsize im)
        = some (((1 + d : Nat) : Int), List.range' 0 (d + 1)) :=
      toc_list_check_loop_stop (fun k => im.byte (1 + k)) (msgdsize im) d (msgdsize im + 1) 0 1
        (by omega) (by omega)
        (fun j hj => by simpa using hset (1 + j) (by omega) (by omega))
        (by simp only [Nat.zero_add]; rw [Nat.add_comm 1 d, ← hd]; exact hp)
    have hmsg := dec_process_msg_frames dec st im (1 + d) _ hlen hscan
    have hfr : ∃ w, dec_frames dec im 1 (1 + d) 0 (1 + (1 + d)) st
        = (st, [Event.ms_warning w]) := by
      rw [Nat.add_comm 1 d]
      by_cases h9 : 9 ≤ toc_get_index (im.byte (1 + 0))
      · exact ⟨_, dec_frames_bad_index dec im 1 d 0 _ st h9⟩
      · exact ⟨_, dec_frames_truncated dec im 1 d 0 _ st (Nat.lt_of_not_le h9)
          (by have : im.data.length = d + 1 := hd
              omega)⟩
    obtain ⟨w, hw⟩ := hfr
    rw [hw] at hmsg
    exact ⟨_, dec_process_single dec st im _ hmsg, rfl, rfl, rfl, rfl, rfl⟩
  · -- the byte after the message is flagged too: the scan fails
    have hscan : toc_list_check (fun k => im.byte (1 + k)) (msgdsize im)
        = some (-1, List.range' 0 (d + 1)) :=
      toc_list_check_loop_fail (fun k => im.byte (1 + k)) (msgdsize im) d (msgdsize im + 1) 0 1
        (by omega) (by omega)
        (fun j hj => by
          simp only [Nat.zero_add]
          by_cases hj2 : j < d
          · exact hset (1 + j) (by omega) (by omega)
          · have : 1 + j = msgdsize im := by omega
            rw [this]; exact hp)
    have hmsg := dec_process_msg_bad_toc dec st im _ hlen hscan
    exact ⟨_, dec_process_single dec st im _ hmsg, rfl, rfl, rfl, rfl, rfl⟩

/-- Witness of C8: header byte and three flagged bytes. -/
theorem C8_unterminated_toc_drops_message_witness :
    ∃ r, dec_process (fun (s : Nat) (_ : List Nat) => (s + 1, s)) 0
        [{ data := [0xf0, 0xbc, 0xbc, 0xbc], past := fun _ => 0xbc }] = some r ∧ r.1 = 0 ∧
      blocks r.2 = [] ∧ units r.2 = [] ∧ copies r.2 = [] ∧
      r.2.getLast? = some Event.freemsg :=
  C8_unterminated_toc_drops_message (fun (s : Nat) (_ : List Nat) => (s + 1, s)) 0
    { data := [0xf0, 0xbc, 0xbc, 0xbc], past := fun _ => 0xbc } (by decide) (by decide)

/-- C9: a message of fewer than 2 bytes is freed and nothing else is done with it: the
events of `dec_process` on a queue that starts with it are `freemsg` followed by the events
of the rest of the queue, processed from the same engine state. So the message adds no
block, no call of `toc_list_check` and no call of the engine, and the next queued message
is processed. -/
theorem C9_short_message_is_skipped {σ β : Type} (dec : σ → List Nat → σ × β)
    (st : σ) (im : mblk_t) (q : List mblk_t) (hshort : msgdsize im < 2) :
    ∃ r, dec_process dec st q = some r ∧
      dec_process dec st (im :: q) = some (r.1, Event.freemsg :: r.2) ∧
      blocks (Event.freemsg :: r.2) = blocks r.2 ∧
      units (Event.freemsg :: r.2) = units r.2 ∧
      toc_calls (Event.freemsg :: r.2) = toc_calls r.2 ∧
      toc_reads (Event.freemsg :: r.2) = toc_reads r.2 := by
  obtain ⟨r, hr⟩ := dec_process_total dec q st
  refine ⟨r, hr, ?_, rfl, rfl, rfl, rfl⟩
  exact dec_process_cons dec st im q (st, [Event.freemsg]) r
    (dec_process_msg_short dec st im hshort) hr

/-- Witness of C9: a one-byte message followed by a well-formed one-frame message. -/
theorem C9_short_message_is_skipped_witness :
    ∃ r, dec_process (fun (s : Nat) (_ : List Nat) => (s + 1, s)) 0
        [{ data := [0xf0, 0x40, 1, 2, 3, 4, 5], past := fun _ => 0 }] = some r ∧
      dec_process (fun (s : Nat) (_ : List Nat) => (s + 1, s)) 0
        [{ data := [0xf0], past := fun _ => 0 },
         { data := [0xf0, 0x40, 1, 2, 3, 4, 5], past := fun _ => 0 }]
          = some (r.1, Event.freemsg :: r.2) ∧
      units r.2 = [[0x40, 1, 2, 3, 4, 5]] ∧ toc_calls (Event.freemsg :: r.2) = 1 := by
  obtain ⟨r, h1, h2, _, _, h5, _⟩ := C9_short_message_is_skipped
    (fun (s : Nat) (_ : List Nat) => (s + 1, s)) 0 { data := [0xf0], past := fun _ => 0 }
    [{ data := [0xf0, 0x40, 1, 2, 3, 4, 5], past := fun _ => 0 }] (by decide)
  have h0 : dec_process (fun (s : Nat) (_ : List Nat) => (s + 1, s)) 0
      [{ data := [0xf0, 0x40, 1, 2, 3, 4, 5], past := fun _ => 0 }]
      = some (1, [Event.toc_list_check 7 [1] 1, Event.memcpy 2 5,
          Event.Decoder_Interface_Decode [0x40, 1, 2, 3, 4, 5],
          Event.ms_queue_put { pcm := 0, nbytes := 320 }, Event.freemsg]) := rfl
  rw [h0] at h1
  cases h1
  exact ⟨_, h0, h2, rfl, rfl⟩

/-! ## The encoder -/

/-- One call of `enc_process` on an empty buffer and a queue holding one message of
exactly one window, when the engine returns a positive count: one payload, stamped with
the counter, and the counter advances by `nsamples` modulo `2^32`. -/
theorem enc_process_one_window {ε : Type}
    (encode : Option ε → Nat → List Nat → Nat → EncodeResult ε) (s : EncState ε) (w : mblk_t)
    (hmb : s.mb = []) (hw : w.data.length = nsamples * 2)
    (hpos : 0 < (encode s.enc MR122 w.data 0).ret) :
    enc_process encode s [w] = some
      ({ enc := (encode s.enc MR122 w.data 0).enc, mb := [],
         ts := (s.ts + nsamples) % 2 ^ 32, dtx := s.dtx },
       [EncEvent.Encoder_Interface_Encode MR122 w.data (encode s.enc MR122 w.data 0).ret,
        EncEvent.ms_queue_put
          { data := 0xf0 :: (List.range (encode s.enc MR122 w.data 0).ret.toNat).map
              (encode s.enc MR122 w.data 0).out,
            timestamp := s.ts }]) := by
  have hfill : enc_fill s.mb [w] = w.data := by simp [enc_fill, ms_bufferizer_put, hmb]
  have hnp : ¬ ((encode s.enc MR122 w.data 0).ret ≤ 0) := by omega
  have hread : ms_bufferizer_read w.data (nsamples * 2) = (nsamples * 2, w.data, []) := by
    simp [ms_bufferizer_read, hw]
  have hread0 : ms_bufferizer_read [] (nsamples * 2) = (0, [], []) := by
    simp [ms_bufferizer_read, nsamples]
  rw [enc_process, hfill, hw]
  rw [show nsamples * 2 + 1 = (nsamples * 2 - 1 + 1) + 1 by simp [nsamples]]
  rw [enc_loop]
  simp only [hread, ge_iff_le, le_refl, if_true, hnp, if_false]
  rw [enc_loop]
  simp only [hread0, ge_iff_le]
  simp [nsamples]

/-- Successive one-window cycles from a state with an empty buffer and counter `s.ts`:
cycle `k` emits exactly one payload, stamped `(s.ts + 160 * k) mod 2^32`. -/
theorem enc_run_one_window_cycles {ε : Type}
    (encode : Option ε → Nat → List Nat → Nat → EncodeResult ε)
    (hpos : ∀ e m w f, 0 < (encode e m w f).ret) :
    ∀ (ws : List mblk_t) (s : EncState ε), s.mb = [] → s.ts < 2 ^ 32 →
      (∀ w ∈ ws, w.data.length = nsamples * 2) →
      ∃ r, enc_run encode s (ws.map (fun w => [w])) = some r ∧
        r.2.map (fun log => (payloads log).map Payload.timestamp)
          = (List.range ws.length).map (fun k => [(s.ts + 160 * k) % 2 ^ 32]) ∧
        r.1.mb = [] ∧ r.1.ts = (s.ts + 160 * ws.length) % 2 ^ 32 := by
  intro ws
  induction ws with
  | nil =>
    intro s hmb hts _
    exact ⟨(s, []), rfl, rfl, hmb, by
      rw [List.length_nil, Nat.mul_zero, Nat.add_zero, Nat.mod_eq_of_lt hts]⟩
  | cons w ws ih =>
    intro s hmb hts hws
    have h1 := enc_process_one_window encode s w hmb (hws w (List.mem_cons_self _ _))
      (hpos _ _ _ _)
    obtain ⟨r, hr, hstamps, hrmb, hrts⟩ := ih
      { enc := (encode s.enc MR122 w.data 0).enc, mb := [],
        ts := (s.ts + nsamples) % 2 ^ 32, dtx := s.dtx } rfl
      (Nat.mod_lt _ (by decide)) (fun x hx => hws x (List.mem_cons_of_mem _ hx))
    refine ⟨(r.1,
      [EncEvent.Encoder_Interface_Encode MR122 w.data (encode s.enc MR122 w.data 0).ret,
        EncEvent.ms_queue_put
          { data := 0xf0 :: (List.range (encode s.enc MR122 w.data 0).ret.toNat).map
              (encode s.enc MR122 w.data 0).out,
            timestamp := s.ts }] :: r.2), ?_, ?_, hrmb, ?_⟩
    · simp only [List.map_cons, enc_run, h1, hr]
    · simp only [List.map_cons, payloads, hstamps, List.length_cons, List.range_succ_eq_map,
        List.map_map, Nat.mul_zero, Nat.add_zero, Nat.mod_eq_of_lt hts]
      congr 1
      apply List.map_congr_left
      intro k _
      simp only [Function.comp, nsamples]
      congr 1
      omega
    · rw [hrts]
      simp only [nsamples, List.length_cons]
      omega

/-- C10 (amended): from a freshly initialised session, with an engine that returns a
positive count for every window, `n` successive cycles of queueing one window of 320 bytes
and running `enc_process` all return, each emits exactly one payload, and the payload of
cycle `k` carries the timestamp `160 * k mod 2^32`, which is `160 * k` as long as
`160 * k < 2^32`; the first carries `0` and the second `160`. -/
theorem C10_one_window_cycles_timestamps {ε : Type}
    (encode : Option ε → Nat → List Nat → Nat → EncodeResult ε)
    (hpos : ∀ e m w f, 0 < (encode e m w f).ret)
    (ws : List mblk_t) (hws : ∀ w ∈ ws, w.data.length = 320) :
    ∃ r, enc_run encode enc_init (ws.map (fun w => [w])) = some r ∧
      r.2.map (fun log => (payloads log).map Payload.timestamp)
        = (List.range ws.length).map (fun k => [160 * k % 2 ^ 32]) ∧
      (∀ k, k < ws.length → 160 * k < 2 ^ 32 →
        (r.2.map (fun log => (payloads log).map Payload.timestamp))[k]? = some [160 * k]) ∧
      r.1.mb = [] := by
  obtain ⟨r, h1, h2, h3, _⟩ := enc_run_one_window_cycles encode hpos ws enc_init rfl
    (show (enc_init : EncState ε).ts < 2 ^ 32 by simp [enc_init])
    (by simpa [nsamples] using hws)
  have h2' : r.2.map (fun log => (payloads log).map Payload.timestamp)
      = (List.range ws.length).map (fun k => [160 * k % 2 ^ 32]) := by
    rw [h2]
    apply List.map_congr_left
    intro k _
    simp [enc_init]
  refine ⟨r, h1, h2', ?_, h3⟩
  intro k hk hlt
  rw [h2', List.getElem?_map, List.getElem?_range hk, Option.map_some',
    Nat.mod_eq_of_lt hlt]

/-- Witness of C10: two cycles, timestamps `0` and `160`. -/
theorem C10_one_window_cycles_timestamps_witness :
    ∃ r, enc_run (fun (e : Option Nat) _ _ _ => { enc := e, ret := 2, out := fun _ => 7 })
        enc_init
        ([{ data := List.replicate 320 0, past := fun _ => 0 },
          { data := List.replicate 320 1, past := fun _ => 0 }].map (fun w => [w])) = some r ∧
      r.2.map (fun log => (payloads log).map Payload.timestamp) = [[0], [160]] := by
  obtain ⟨r, h1, h2, _, _⟩ := C10_one_window_cycles_timestamps
    (fun (e : Option Nat) _ _ _ => { enc := e, ret := 2, out := fun _ => 7 })
    (fun _ _ _ _ => (by decide : (0 : Int) < 2))
    [{ data := List.replicate 320 0, past := fun _ => 0 },
     { data := List.replicate 320 1, past := fun _ => 0 }]
    (by
      intro w hw
      simp only [List.mem_cons, List.mem_singleton, List.not_mem_nil, or_false] at hw
      rcases hw with rfl | rfl <;> exact List.length_replicate _ _)
  exact ⟨r, h1, by rw [h2]; decide⟩

/-- Counterexample to C10 as stated: with an engine that always returns one byte, the
payload of cycle `26843546` of `26843547` one-window cycles carries the timestamp `64`,
not `160 * 26843546 = 4294967360`: the counter is a `uint32_t`. -/
theorem C10_timestamp_wraps_counterexample :
    ∃ r, enc_run (fun (e : Option Nat) _ _ _ => { enc := e, ret := 1, out := fun _ => 0 })
        enc_init
        ((List.replicate 26843547 ({ data := List.replicate 320 0, past := fun _ => 0 } :
          mblk_t)).map (fun w => [w])) = some r ∧
      (r.2.map (fun log => (payloads log).map Payload.timestamp))[26843546]? = some [64] ∧
      64 ≠ 160 * 26843546 := by
  obtain ⟨r, h1, h2, _, _⟩ := enc_run_one_window_cycles
    (fun (e : Option Nat) _ _ _ => { enc := e, ret := 1, out := fun _ => 0 })
    (fun _ _ _ _ => (by decide : (0 : Int) < 1))
    (List.replicate 26843547 ({ data := List.replicate 320 0, past := fun _ => 0 } : mblk_t))
    enc_init rfl (show (enc_init : EncState Nat).ts < 2 ^ 32 by decide)
    (fun w hw => by rw [List.eq_of_mem_replicate hw]; exact List.length_replicate _ _)
  refine ⟨r, h1, ?_, by decide⟩
  rw [h2, List.length_replicate, List.getElem?_map, List.getElem?_range (by decide),
    Option.map_some']
  rfl

/-! ## The encoder loop -/

theorem payloads_append (a b : List EncEvent) :
    payloads (a ++ b) = payloads a ++ payloads b := by
  induction a with
  | nil => rfl
  | cons e a ih => cases e <;> simp [payloads, ih]

theorem windows_append (a b : List EncEvent) :
    windows (a ++ b) = windows a ++ windows b := by
  induction a with
  | nil => rfl
  | cons e a ih => cases e <;> simp [windows, ih]

/-- The first loop of `enc_process` appends the queued messages in arrival order. -/
theorem enc_fill_eq : ∀ (q : List mblk_t) (mb : List Nat),
    enc_fill mb q = mb ++ (q.map (fun im => im.data)).flatten := by
  intro q
  induction q with
  | nil => intro mb; simp [enc_fill]
  | cons im q ih => intro mb; simp [enc_fill, ih, ms_bufferizer_put]

/-- With less than one window buffered the loop ends and changes nothing. -/
theorem enc_loop_done {ε : Type} (encode : Option ε → Nat → List Nat → Nat → EncodeResult ε)
    (fuel : Nat) (s : EncState ε) (h : s.mb.length < 320) :
    enc_loop encode (fuel + 1) s = some (s, []) := by
  have hr : ms_bufferizer_read s.mb (nsamples * 2) = (0, [], s.mb) := by
    simp [ms_bufferizer_read, nsamples, h]
  rw [enc_loop]
  simp only [hr, ge_iff_le]
  simp [nsamples]

/-- One iteration on a window the engine fails on: warning, the output message is freed,
the window is gone from the buffer, the counter is untouched. -/
theorem enc_loop_fail {ε : Type} (encode : Option ε → Nat → List Nat → Nat → EncodeResult ε)
    (fuel : Nat) (s : EncState ε) (h : 320 ≤ s.mb.length)
    (hret : (encode s.enc MR122 (s.mb.take 320) 0).ret ≤ 0) :
    enc_loop encode (fuel + 1) s =
      (enc_loop encode fuel
        { enc := (encode s.enc MR122 (s.mb.take 320) 0).enc, mb := s.mb.drop 320,
          ts := s.ts, dtx := s.dtx }).map
        (fun r => (r.1,
          EncEvent.Encoder_Interface_Encode MR122 (s.mb.take 320)
            (encode s.enc MR122 (s.mb.take 320) 0).ret ::
          EncEvent.ms_warning (Warning.encoder_returned
            (encode s.enc MR122 (s.mb.take 320) 0).ret) ::
          EncEvent.freemsg :: r.2)) := by
  have hr : ms_bufferizer_read s.mb (nsamples * 2) = (320, s.mb.take 320, s.mb.drop 320) := by
    simp [ms_bufferizer_read, nsamples, h]
  rw [enc_loop]
  simp only [hr, ge_iff_le, hret, if_true]
  simp [nsamples]

/-- One iteration on a window the engine encodes: the payload is the header byte and the
bytes the engine produced, stamped with the counter, and the counter advances. -/
theorem enc_loop_ok {ε : Type} (encode : Option ε → Nat → List Nat → Nat → EncodeResult ε)
    (fuel : Nat) (s : EncState ε) (h : 320 ≤ s.mb.length)
    (hret : 0 < (encode s.enc MR122 (s.mb.take 320) 0).ret) :
    enc_loop encode (fuel + 1) s =
      (enc_loop encode fuel
        { enc := (encode s.enc MR122 (s.mb.take 320) 0).enc, mb := s.mb.drop 320,
          ts := (s.ts + 160) % 2 ^ 32, dtx := s.dtx }).map
        (fun r => (r.1,
          EncEvent.Encoder_Interface_Encode MR122 (s.mb.take 320)
            (encode s.enc MR122 (s.mb.take 320) 0).ret ::
          EncEvent.ms_queue_put
            { data := 0xf0 :: (List.range (encode s.enc MR122 (s.mb.take 320) 0).ret.toNat).map
                (encode s.enc MR122 (s.mb.take 320) 0).out,
              timestamp := s.ts } :: r.2)) := by
  have hr : ms_bufferizer_read s.mb (nsamples * 2) = (320, s.mb.take 320, s.mb.drop 320) := by
    simp [ms_bufferizer_read, nsamples, h]
  have hnp : ¬ ((encode s.enc MR122 (s.mb.take 320) 0).ret ≤ 0) := by omega
  rw [enc_loop]
  simp only [hr, ge_iff_le, hnp, if_false]
  simp [nsamples]

/-- The result of the loop does not depend on the fuel once there is one unit of fuel per
buffered window and one more. -/
theorem enc_loop_fuel {ε : Type} (encode : Option ε → Nat → List Nat → Nat → EncodeResult ε) :
    ∀ (f1 f2 : Nat) (s : EncState ε), s.mb.length < 320 * f1 → s.mb.length < 320 * f2 →
      enc_loop encode f1 s = enc_loop encode f2 s := by
  intro f1
  induction f1 with
  | zero => intro f2 s h; omega
  | succ f1 ih =>
    intro f2 s h1 h2
    obtain ⟨g, rfl⟩ : ∃ g, f2 = g + 1 := ⟨f2 - 1, by omega⟩
    by_cases hlen : s.mb.length < 320
    · rw [enc_loop_done encode f1 s hlen, enc_loop_done encode g s hlen]
    · have hge : 320 ≤ s.mb.length := Nat.le_of_not_lt hlen
      have hd : (s.mb.drop 320).length = s.mb.length - 320 := List.length_drop _ _
      by_cases hret : (encode s.enc MR122 (s.mb.take 320) 0).ret ≤ 0
      · rw [enc_loop_fail encode f1 s hge hret, enc_loop_fail encode g s hge hret,
          ih g _ (by simp only [hd]; omega) (by simp only [hd]; omega)]
      · have hpos : 0 < (encode s.enc MR122 (s.mb.take 320) 0).ret := by omega
        rw [enc_loop_ok encode f1 s hge hpos, enc_loop_ok encode g s hge hpos,
          ih g _ (by simp only [hd]; omega) (by simp only [hd]; omega)]

/-- The function `enc_process` is the loop on the filled buffer, with any sufficient fuel. -/
theorem enc_process_eq_loop {ε : Type}
    (encode : Option ε → Nat → List Nat → Nat → EncodeResult ε) (s : EncState ε)
    (q : List mblk_t) (fuel : Nat) (h : (enc_fill s.mb q).length < 320 * fuel) :
    enc_process encode s q
      = enc_loop encode fuel { enc := s.enc, mb := enc_fill s.mb q, ts := s.ts, dtx := s.dtx } := by
  rw [enc_process]
  exact enc_loop_fuel encode _ _ _ (by simp only []; omega) h

/-- The loop returns, removes every whole window from the front of the buffer in order,
hands exactly these windows to the engine, and leaves the remainder. -/
theorem enc_loop_buffer {ε : Type} (encode : Option ε → Nat → List Nat → Nat → EncodeResult ε) :
    ∀ (fuel : Nat) (s : EncState ε), s.mb.length < 320 * fuel →
      ∃ r, enc_loop encode fuel s = some r ∧
        r.1.mb = s.mb.drop (320 * (s.mb.length / 320)) ∧
        windows r.2 = (List.range (s.mb.length / 320)).map
          (fun k => (s.mb.drop (320 * k)).take 320) ∧
        (payloads r.2).length ≤ s.mb.length / 320 ∧
        r.1.dtx = s.dtx := by
  intro fuel
  induction fuel with
  | zero => intro s h; omega
  | succ fuel ih =>
    intro s h
    by_cases hlen : s.mb.length < 320
    · have h0 : s.mb.length / 320 = 0 := by omega
      exact ⟨(s, []), enc_loop_done encode fuel s hlen, by simp [h0], by simp [h0, windows],
        by simp [payloads], rfl⟩
    · have hge : 320 ≤ s.mb.length := Nat.le_of_not_lt hlen
      have hd : (s.mb.drop 320).length = s.mb.length - 320 := List.length_drop _ _
      have hq : s.mb.length / 320 = (s.mb.length - 320) / 320 + 1 := by omega
      have hwin : ∀ (l : List (List Nat)),
          l = (List.range ((s.mb.length - 320) / 320)).map
            (fun k => ((s.mb.drop 320).drop (320 * k)).take 320) →
          s.mb.take 320 :: l = (List.range (s.mb.length / 320)).map
            (fun k => (s.mb.drop (320 * k)).take 320) := by
        intro l hl
        rw [hq, List.range_succ_eq_map, List.map_cons, List.map_map, hl]
        simp only [Nat.mul_zero, List.drop_zero, List.cons.injEq, true_and]
        apply List.map_congr_left
        intro k _
        simp only [Function.comp, List.drop_drop, Nat.succ_eq_add_one]
        congr 2
        omega
      have hdrop : ∀ (l : List Nat),
          l = (s.mb.drop 320).drop (320 * ((s.mb.length - 320) / 320)) →
          l = s.mb.drop (320 * (s.mb.length / 320)) := by
        intro l hl
        rw [hl, List.drop_drop, hq]
        congr 1
        omega
      by_cases hret : (encode s.enc MR122 (s.mb.take 320) 0).ret ≤ 0
      · obtain ⟨r, hr, hmb, hw, hp, hdtx⟩ := ih
          { enc := (encode s.enc MR122 (s.mb.take 320) 0).enc, mb := s.mb.drop 320,
            ts := s.ts, dtx := s.dtx } (by simp only [hd]; omega)
        simp only [hd] at hmb hw hp
        refine ⟨(r.1,
          EncEvent.Encoder_Interface_Encode MR122 (s.mb.take 320)
            (encode s.enc MR122 (s.mb.take 320) 0).ret ::
          EncEvent.ms_warning (Warning.encoder_returned
            (encode s.enc MR122 (s.mb.take 320) 0).ret) ::
          EncEvent.freemsg :: r.2), by rw [enc_loop_fail encode fuel s hge hret, hr]; rfl, hdrop _ hmb, ?_, ?_,
          hdtx⟩
        · simp only [windows]; exact hwin _ hw
        · simp only [payloads]; omega
      · have hpos : 0 < (encode s.enc MR122 (s.mb.take 320) 0).ret := by omega
        obtain ⟨r, hr, hmb, hw, hp, hdtx⟩ := ih
          { enc := (encode s.enc MR122 (s.mb.take 320) 0).enc, mb := s.mb.drop 320,
            ts := (s.ts + 160) % 2 ^ 32, dtx := s.dtx } (by simp only [hd]; omega)
        simp only [hd] at hmb hw hp
        refine ⟨(r.1,
          EncEvent.Encoder_Interface_Encode MR122 (s.mb.take 320)
            (encode s.enc MR122 (s.mb.take 320) 0).ret ::
          EncEvent.ms_queue_put
            { data := 0xf0 :: (List.range (encode s.enc MR122 (s.mb.take 320) 0).ret.toNat).map
                (encode s.enc MR122 (s.mb.take 320) 0).out,
              timestamp := s.ts } :: r.2), by rw [enc_loop_ok encode fuel s hge hpos, hr]; rfl, hdrop _ hmb, ?_, ?_,
          hdtx⟩
        · simp only [windows]; exact hwin _ hw
        · simp only [payloads, List.length_cons]; omega

/-- The payloads of one run of the loop are stamped with consecutive multiples of 160
from the counter, modulo `2^32`, and the counter ends 160 times their number further. -/
theorem enc_loop_stamps {ε : Type} (encode : Option ε → Nat → List Nat → Nat → EncodeResult ε) :
    ∀ (fuel : Nat) (s : EncState ε), s.mb.length < 320 * fuel → s.ts < 2 ^ 32 →
      ∃ r, enc_loop encode fuel s = some r ∧
        (payloads r.2).map Payload.timestamp = (List.range (payloads r.2).length).map
          (fun k => (s.ts + 160 * k) % 2 ^ 32) ∧
        r.1.ts = (s.ts + 160 * (payloads r.2).length) % 2 ^ 32 := by
  intro fuel
  induction fuel with
  | zero => intro s h; omega
  | succ fuel ih =>
    intro s h hts
    by_cases hlen : s.mb.length < 320
    · exact ⟨(s, []), enc_loop_done encode fuel s hlen, by simp [payloads], by
        simp only [payloads, List.length_nil, Nat.mul_zero, Nat.add_zero]
        exact (Nat.mod_eq_of_lt hts).symm⟩
    · have hge : 320 ≤ s.mb.length := Nat.le_of_not_lt hlen
      have hd : (s.mb.drop 320).length = s.mb.length - 320 := List.length_drop _ _
      by_cases hret : (encode s.enc MR122 (s.mb.take 320) 0).ret ≤ 0
      · obtain ⟨r, hr, hst, hfin⟩ := ih
          { enc := (encode s.enc MR122 (s.mb.take 320) 0).enc, mb := s.mb.drop 320,
            ts := s.ts, dtx := s.dtx } (by simp only [hd]; omega) hts
        exact ⟨(r.1,
          EncEvent.Encoder_Interface_Encode MR122 (s.mb.take 320)
            (encode s.enc MR122 (s.mb.take 320) 0).ret ::
          EncEvent.ms_warning (Warning.encoder_returned
            (encode s.enc MR122 (s.mb.take 320) 0).ret) ::
          EncEvent.freemsg :: r.2), by rw [enc_loop_fail encode fuel s hge hret, hr]; rfl,
          by simpa only [payloads] using hst, by simpa only [payloads] using hfin⟩
      · have hpos : 0 < (encode s.enc MR122 (s.mb.take 320) 0).ret := by omega
        obtain ⟨r, hr, hst, hfin⟩ := ih
          { enc := (encode s.enc MR122 (s.mb.take 320) 0).enc, mb := s.mb.drop 320,
            ts := (s.ts + 160) % 2 ^ 32, dtx := s.dtx } (by simp only [hd]; omega)
          (Nat.mod_lt _ (by decide))
        refine ⟨(r.1,
          EncEvent.Encoder_Interface_Encode MR122 (s.mb.take 320)
            (encode s.enc MR122 (s.mb.take 320) 0).ret ::
          EncEvent.ms_queue_put
            { data := 0xf0 :: (List.range (encode s.enc MR122 (s.mb.take 320) 0).ret.toNat).map
                (encode s.enc MR122 (s.mb.take 320) 0).out,
              timestamp := s.ts } :: r.2), by rw [enc_loop_ok encode fuel s hge hpos, hr]; rfl, ?_, ?_⟩
        · simp only [payloads, List.map_cons, List.length_cons, hst, List.range_succ_eq_map,
            List.map_map, Nat.mul_zero, Nat.add_zero, Nat.mod_eq_of_lt hts]
          congr 1
          apply List.map_congr_left
          intro k _
          simp only [Function.comp]
          omega
        · simp only [payloads, List.length_cons, hfin]
          omega

/-- The timestamps of one call of `enc_process`. -/
theorem enc_process_stamps {ε : Type}
    (encode : Option ε → Nat → List Nat → Nat → EncodeResult ε) (s : EncState ε)
    (q : List mblk_t) (hts : s.ts < 2 ^ 32) :
    ∃ r, enc_process encode s q = some r ∧
      (payloads r.2).map Payload.timestamp = (List.range (payloads r.2).length).map
        (fun k => (s.ts + 160 * k) % 2 ^ 32) ∧
      r.1.ts = (s.ts + 160 * (payloads r.2).length) % 2 ^ 32 :=
  enc_loop_stamps encode ((enc_fill s.mb q).length + 1)
    { enc := s.enc, mb := enc_fill s.mb q, ts := s.ts, dtx := s.dtx }
    (by simp only []; omega) hts

/-- The timestamps of successive calls of `enc_process`: over the whole run the payloads
are stamped with consecutive multiples of 160 from the initial counter, modulo `2^32`. -/
theorem enc_run_stamps {ε : Type} (encode : Option ε → Nat → List Nat → Nat → EncodeResult ε) :
    ∀ (qs : List (List mblk_t)) (s : EncState ε), s.ts < 2 ^ 32 →
      ∃ r, enc_run encode s qs = some r ∧
        (payloads r.2.flatten).map Payload.timestamp
          = (List.range (payloads r.2.flatten).length).map
            (fun k => (s.ts + 160 * k) % 2 ^ 32) ∧
        r.1.ts = (s.ts + 160 * (payloads r.2.flatten).length) % 2 ^ 32 := by
  intro qs
  induction qs with
  | nil =>
    intro s hts
    exact ⟨(s, []), rfl, by simp [payloads], by
      simp only [List.flatten_nil, payloads, List.length_nil, Nat.mul_zero, Nat.add_zero]
      exact (Nat.mod_eq_of_lt hts).symm⟩
  | cons q qs ih =>
    intro s hts
    obtain ⟨r1, h1, hst1, hfin1⟩ := enc_process_stamps encode s q hts
    obtain ⟨r2, h2, hst2, hfin2⟩ := ih r1.1 (by rw [hfin1]; exact Nat.mod_lt _ (by decide))
    refine ⟨(r2.1, r1.2 :: r2.2), by simp only [enc_run, h1, h2], ?_, ?_⟩
    · simp only [List.flatten_cons, payloads_append, List.map_append, List.length_append,
        List.range_add, hst1, hst2, List.map_map]
      congr 1
      apply List.map_congr_left
      intro k _
      simp only [Function.comp, hfin1]
      omega
    · simp only [List.flatten_cons, payloads_append, List.length_append, hfin2, hfin1]
      omega

/-- After the first window of a call the rest of the call is a call on the successor
state with an empty queue. -/
theorem enc_loop_eq_process {ε : Type}
    (encode : Option ε → Nat → List Nat → Nat → EncodeResult ε) (s : EncState ε)
    (fuel : Nat) (h : s.mb.length < 320 * fuel) :
    enc_loop encode fuel s = enc_process encode s [] :=
  (enc_process_eq_loop encode s [] fuel h).symm

/-- The first payload a call emits carries the counter the call started with. -/
theorem enc_process_first_stamp {ε : Type}
    (encode : Option ε → Nat → List Nat → Nat → EncodeResult ε) (s : EncState ε)
    (q : List mblk_t) (hts : s.ts < 2 ^ 32) (r : EncState ε × List EncEvent)
    (hr : enc_process encode s q = some r) (p : Payload)
    (hp : (payloads r.2).head? = some p) : p.timestamp = s.ts := by
  obtain ⟨r', hr', hst, _⟩ := enc_process_stamps encode s q hts
  rw [hr] at hr'
  cases hr'
  cases hps : payloads r.2 with
  | nil => rw [hps] at hp; simp at hp
  | cons p0 ps =>
    rw [hps] at hp hst
    simp only [List.head?_cons, Option.some.injEq] at hp
    subst hp
    simp only [List.map_cons, List.length_cons, List.range_succ_eq_map, Nat.mul_zero,
      Nat.add_zero, List.cons.injEq] at hst
    rw [hst.1, Nat.mod_eq_of_lt hts]

/-- A call on an empty buffer and two queued windows, the engine failing on the first and
encoding the second. -/
theorem enc_process_fail_then_ok {ε : Type}
    (encode : Option ε → Nat → List Nat → Nat → EncodeResult ε) (s : EncState ε)
    (w0 w1 : mblk_t) (hmb : s.mb = []) (h0 : w0.data.length = 320) (h1 : w1.data.length = 320)
    (hfail : (encode s.enc MR122 w0.data 0).ret ≤ 0)
    (hok : 0 < (encode (encode s.enc MR122 w0.data 0).enc MR122 w1.data 0).ret) :
    enc_process encode s [w0, w1] = some
      ({ enc := (encode (encode s.enc MR122 w0.data 0).enc MR122 w1.data 0).enc, mb := [],
         ts := (s.ts + 160) % 2 ^ 32, dtx := s.dtx },
       [EncEvent.Encoder_Interface_Encode MR122 w0.data (encode s.enc MR122 w0.data 0).ret,
        EncEvent.ms_warning (Warning.encoder_returned (encode s.enc MR122 w0.data 0).ret),
        EncEvent.freemsg,
        EncEvent.Encoder_Interface_Encode MR122 w1.data
          (encode (encode s.enc MR122 w0.data 0).enc MR122 w1.data 0).ret,
        EncEvent.ms_queue_put
          { data := 0xf0 ::
              (List.range (encode (encode s.enc MR122 w0.data 0).enc MR122 w1.data 0).ret.toNat).map
                (encode (encode s.enc MR122 w0.data 0).enc MR122 w1.data 0).out,
            timestamp := s.ts }]) := by
  have hfill : enc_fill s.mb [w0, w1] = w0.data ++ w1.data := by
    rw [enc_fill_eq, hmb]
    simp only [List.map_cons, List.map_nil, List.flatten_cons, List.flatten_nil,
      List.append_nil, List.nil_append]
  have ht0 : (w0.data ++ w1.data).take 320 = w0.data := List.take_left' h0
  have hd0 : (w0.data ++ w1.data).drop 320 = w1.data := List.drop_left' h0
  have ht1 : w1.data.take 320 = w1.data := List.take_of_length_le (by omega)
  have hd1 : w1.data.drop 320 = [] := List.drop_of_length_le (by omega)
  rw [enc_process_eq_loop encode s [w0, w1] 3
    (by rw [hfill, List.length_append, h0, h1]; decide), hfill]
  rw [enc_loop_fail encode 2 _ (by simp only [List.length_append, h0, h1]; decide)
    (by simp only [ht0]; exact hfail)]
  simp only [ht0, hd0]
  rw [enc_loop_ok encode 1 _ (by simp only [h1]; decide) (by simp only [ht1]; exact hok)]
  simp only [ht1, hd1]
  rw [enc_loop_done encode 0 _ (by simp only [List.length_nil]; decide)]
  rfl

/-- C11 (amended): when the engine reports a non-positive result for a window (here the
first window of a call, every later window being the first window of the rest of the call),
`enc_process` emits nothing for it, the window is consumed, and the rest of the call runs
on the remaining buffer with the timestamp counter unchanged: the counter does not
advance for a failed window, and the next payload emitted carries the counter value the
failed window found. -/
theorem C11_failed_window_leaves_counter {ε : Type}
    (encode : Option ε → Nat → List Nat → Nat → EncodeResult ε) (s : EncState ε)
    (q : List mblk_t) (hts : s.ts < 2 ^ 32) (hwin : 320 ≤ (enc_fill s.mb q).length)
    (hfail : (encode s.enc MR122 ((enc_fill s.mb q).take 320) 0).ret ≤ 0) :
    ∃ r, enc_process encode
        { enc := (encode s.enc MR122 ((enc_fill s.mb q).take 320) 0).enc,
          mb := (enc_fill s.mb q).drop 320, ts := s.ts, dtx := s.dtx } [] = some r ∧
      enc_process encode s q = some (r.1,
        EncEvent.Encoder_Interface_Encode MR122 ((enc_fill s.mb q).take 320)
          (encode s.enc MR122 ((enc_fill s.mb q).take 320) 0).ret ::
        EncEvent.ms_warning (Warning.encoder_returned
          (encode s.enc MR122 ((enc_fill s.mb q).take 320) 0).ret) ::
        EncEvent.freemsg :: r.2) ∧
      payloads (EncEvent.Encoder_Interface_Encode MR122 ((enc_fill s.mb q).take 320)
          (encode s.enc MR122 ((enc_fill s.mb q).take 320) 0).ret ::
        EncEvent.ms_warning (Warning.encoder_returned
          (encode s.enc MR122 ((enc_fill s.mb q).take 320) 0).ret) ::
        EncEvent.freemsg :: r.2) = payloads r.2 ∧
      ∀ p, (payloads r.2).head? = some p → p.timestamp = s.ts := by
  have hd : ((enc_fill s.mb q).drop 320).length = (enc_fill s.mb q).length - 320 :=
    List.length_drop _ _
  obtain ⟨r, hr, _⟩ := enc_process_stamps encode
    { enc := (encode s.enc MR122 ((enc_fill s.mb q).take 320) 0).enc,
      mb := (enc_fill s.mb q).drop 320, ts := s.ts, dtx := s.dtx } [] hts
  refine ⟨r, hr, ?_, rfl, fun p hp => enc_process_first_stamp encode
    { enc := (encode s.enc MR122 ((enc_fill s.mb q).take 320) 0).enc,
      mb := (enc_fill s.mb q).drop 320, ts := s.ts, dtx := s.dtx } [] hts r hr p hp⟩
  rw [enc_process_eq_loop encode s q ((enc_fill s.mb q).length + 1) (by omega),
    enc_loop_fail encode _ _ hwin hfail,
    enc_loop_eq_process encode _ _ (by simp only [hd]; omega), hr]
  rfl

/-- Witness of C11: an engine that fails on a window starting with `0` and returns one
byte otherwise, a window of zeros then a window of ones: the first call event is the
failed encode, and the first payload of the rest of the call carries timestamp `0`. -/
theorem C11_failed_window_leaves_counter_witness :
    ∃ r, enc_process
        (fun (e : Option Nat) _ w _ =>
          { enc := e, ret := if w.head? = some 0 then 0 else 1, out := fun _ => 0x55 })
        { enc := none, mb := List.replicate 320 1, ts := 0, dtx := false } [] = some r ∧
      enc_process
        (fun (e : Option Nat) _ w _ =>
          { enc := e, ret := if w.head? = some 0 then 0 else 1, out := fun _ => 0x55 })
        enc_init
        [{ data := List.replicate 320 0, past := fun _ => 0 },
         { data := List.replicate 320 1, past := fun _ => 0 }]
        = some (r.1, EncEvent.Encoder_Interface_Encode MR122 (List.replicate 320 0) 0 ::
            EncEvent.ms_warning (Warning.encoder_returned 0) :: EncEvent.freemsg :: r.2) ∧
      ∀ p, (payloads r.2).head? = some p → p.timestamp = 0 := by
  have hfill : enc_fill (enc_init : EncState Nat).mb
      [{ data := List.replicate 320 0, past := fun _ => 0 },
       { data := List.replicate 320 1, past := fun _ => 0 }]
      = List.replicate 320 0 ++ List.replicate 320 1 := by
    rw [enc_fill_eq]
    simp only [enc_init, List.map_cons, List.map_nil, List.flatten_cons, List.flatten_nil,
      List.append_nil, List.nil_append]
  have ht : (List.replicate 320 0 ++ List.replicate 320 1 : List Nat).take 320
      = List.replicate 320 0 := List.take_left' (List.length_replicate _ _)
  have hd : (List.replicate 320 0 ++ List.replicate 320 1 : List Nat).drop 320
      = List.replicate 320 1 := List.drop_left' (List.length_replicate _ _)
  have h := C11_failed_window_leaves_counter
    (fun (e : Option Nat) _ w _ =>
      { enc := e, ret := if w.head? = some 0 then 0 else 1, out := fun _ => 0x55 })
    enc_init
    [{ data := List.replicate 320 0, past := fun _ => 0 },
     { data := List.replicate 320 1, past := fun _ => 0 }]
    (show (enc_init : EncState Nat).ts < 2 ^ 32 by decide)
    (by rw [hfill, List.length_append, List.length_replicate, List.length_replicate]; decide)
    (by rw [hfill, ht]; decide)
  rw [hfill, ht, hd] at h
  obtain ⟨r, h1, h2, _, h4⟩ := h
  exact ⟨r, h1, h2, h4⟩

/-- Counterexample to C11 as stated: the engine fails on the first window (zeros) and
encodes the second (ones). Both windows are consumed, one payload is emitted, and it
carries timestamp `0`, not `160`; the counter ends at `160`, not `320`. -/
theorem C11_counter_not_advanced_counterexample :
    ∃ r, enc_process
        (fun (e : Option Nat) _ w _ =>
          { enc := e, ret := if w.head? = some 0 then 0 else 1, out := fun _ => 0x55 })
        enc_init
        [{ data := List.replicate 320 0, past := fun _ => 0 },
         { data := List.replicate 320 1, past := fun _ => 0 }] = some r ∧
      windows r.2 = [List.replicate 320 0, List.replicate 320 1] ∧
      (payloads r.2).map Payload.timestamp = [0] ∧
      (payloads r.2).map Payload.timestamp ≠ [160] ∧
      r.1.ts = 160 ∧ r.1.mb = [] := by
  have h := enc_process_fail_then_ok
    (fun (e : Option Nat) _ w _ =>
      { enc := e, ret := if w.head? = some 0 then 0 else 1, out := fun _ => 0x55 })
    enc_init { data := List.replicate 320 0, past := fun _ => 0 }
    { data := List.replicate 320 1, past := fun _ => 0 } rfl
    (List.length_replicate _ _) (List.length_replicate _ _) (by decide) (by decide)
  exact ⟨_, h, rfl, rfl, by decide, rfl, rfl⟩

/-- C12: let `b` be the number of bytes in the sample buffer once the queued messages are
appended (in arrival order, after the bytes already buffered). `enc_process` returns, hands
to the engine exactly the `b / 320` whole windows from the front of the buffer, in order,
and leaves the last `b mod 320` bytes buffered, unchanged. When `b < 320` it emits no
payload and the buffer keeps every byte. -/
theorem C12_whole_windows_consumed_remainder_kept {ε : Type}
    (encode : Option ε → Nat → List Nat → Nat → EncodeResult ε) (s : EncState ε)
    (q : List mblk_t) :
    ∃ r, enc_process encode s q = some r ∧
      enc_fill s.mb q = s.mb ++ (q.map (fun im => im.data)).flatten ∧
      windows r.2 = (List.range ((enc_fill s.mb q).length / 320)).map
        (fun k => ((enc_fill s.mb q).drop (320 * k)).take 320) ∧
      (windows r.2).length = (enc_fill s.mb q).length / 320 ∧
      r.1.mb = (enc_fill s.mb q).drop (320 * ((enc_fill s.mb q).length / 320)) ∧
      r.1.mb.length = (enc_fill s.mb q).length % 320 ∧
      ((enc_fill s.mb q).length < 320 → payloads r.2 = [] ∧ r.1.mb = enc_fill s.mb q) := by
  obtain ⟨r, hr, hmb, hw, hp, _⟩ := enc_loop_buffer encode ((enc_fill s.mb q).length + 1)
    { enc := s.enc, mb := enc_fill s.mb q, ts := s.ts, dtx := s.dtx }
    (by simp only []; omega)
  simp only [] at hmb hw hp
  refine ⟨r, hr, enc_fill_eq q s.mb, hw, by rw [hw]; simp, hmb, ?_, ?_⟩
  · rw [hmb, List.length_drop]
    have := Nat.div_add_mod (enc_fill s.mb q).length 320
    omega
  · intro hlt
    have h0 : (enc_fill s.mb q).length / 320 = 0 := by omega
    rw [h0] at hp
    refine ⟨List.length_eq_zero.mp (Nat.le_zero.mp hp), ?_⟩
    rw [hmb, h0]; rfl

/-- Witness of C12: 100 bytes buffered, 300 bytes queued in two messages, an engine that
returns 3 bytes: one window is handed to the engine and 80 bytes stay buffered. -/
theorem C12_whole_windows_consumed_remainder_kept_witness :
    ∃ r, enc_process
        (fun (e : Option Nat) _ _ _ => { enc := e, ret := 3, out := fun i => i })
        { enc := none, mb := List.replicate 100 1, ts := 0, dtx := false }
        [{ data := List.replicate 200 2, past := fun _ => 0 },
         { data := List.replicate 100 3, past := fun _ => 0 }] = some r ∧
      (windows r.2).length = 1 ∧ r.1.mb.length = 80 := by
  obtain ⟨r, h1, h2, _, h4, _, h6, _⟩ := C12_whole_windows_consumed_remainder_kept
    (fun (e : Option Nat) _ _ _ => { enc := e, ret := 3, out := fun i => i })
    { enc := none, mb := List.replicate 100 1, ts := 0, dtx := false }
    [{ data := List.replicate 200 2, past := fun _ => 0 },
     { data := List.replicate 100 3, past := fun _ => 0 }]
  have hlen : (enc_fill (List.replicate 100 1)
      [{ data := List.replicate 200 2, past := fun _ => 0 },
       { data := List.replicate 100 3, past := fun _ => 0 }]).length = 400 := by
    rw [enc_fill_eq]
    simp only [List.map_cons, List.map_nil, List.flatten_cons, List.flatten_nil,
      List.append_nil, List.length_append, List.length_replicate]
  have h4' := h4.trans (congrArg (fun n => n / 320) hlen)
  have h6' := h6.trans (congrArg (fun n => n % 320) hlen)
  exact ⟨r, h1, h4', h6'⟩

/-- C13: when the engine reports a positive count `ret` for a window (here the first
window of a call, every later window being the first window of the rest of the call), the
engine was called at mode `MR122` and the payload put on the output queue is the byte
`0xF0` followed by the first `ret` bytes the engine wrote, so its length is `1 + ret`; it
is stamped with the counter, and the rest of the call runs on the remaining buffer. -/
theorem C13_payload_is_header_and_engine_bytes {ε : Type}
    (encode : Option ε → Nat → List Nat → Nat → EncodeResult ε) (s : EncState ε)
    (q : List mblk_t) (hwin : 320 ≤ (enc_fill s.mb q).length)
    (hok : 0 < (encode s.enc MR122 ((enc_fill s.mb q).take 320) 0).ret) :
    ∃ r, enc_process encode
        { enc := (encode s.enc MR122 ((enc_fill s.mb q).take 320) 0).enc,
          mb := (enc_fill s.mb q).drop 320, ts := (s.ts + 160) % 2 ^ 32, dtx := s.dtx } []
          = some r ∧
      enc_process encode s q = some (r.1,
        EncEvent.Encoder_Interface_Encode MR122 ((enc_fill s.mb q).take 320)
          (encode s.enc MR122 ((enc_fill s.mb q).take 320) 0).ret ::
        EncEvent.ms_queue_put
          { data := 0xF0 ::
              (List.range (encode s.enc MR122 ((enc_fill s.mb q).take 320) 0).ret.toNat).map
                (encode s.enc MR122 ((enc_fill s.mb q).take 320) 0).out,
            timestamp := s.ts } :: r.2) ∧
      (((0xF0 ::
          (List.range (encode s.enc MR122 ((enc_fill s.mb q).take 320) 0).ret.toNat).map
            (encode s.enc MR122 ((enc_fill s.mb q).take 320) 0).out).length : Nat) : Int)
        = 1 + (encode s.enc MR122 ((enc_fill s.mb q).take 320) 0).ret ∧
      MR122 = 7 := by
  have hd : ((enc_fill s.mb q).drop 320).length = (enc_fill s.mb q).length - 320 :=
    List.length_drop _ _
  obtain ⟨r, hr, _⟩ := enc_loop_buffer encode (((enc_fill s.mb q).drop 320).length + 1)
    { enc := (encode s.enc MR122 ((enc_fill s.mb q).take 320) 0).enc,
      mb := (enc_fill s.mb q).drop 320, ts := (s.ts + 160) % 2 ^ 32, dtx := s.dtx }
    (by simp only []; omega)
  have hr' : enc_process encode
      { enc := (encode s.enc MR122 ((enc_fill s.mb q).take 320) 0).enc,
        mb := (enc_fill s.mb q).drop 320, ts := (s.ts + 160) % 2 ^ 32, dtx := s.dtx } []
      = some r := hr
  refine ⟨r, hr', ?_, ?_, rfl⟩
  · rw [enc_process_eq_loop encode s q ((enc_fill s.mb q).length + 1) (by omega),
      enc_loop_ok encode _ _ hwin hok,
      enc_loop_eq_process encode _ _ (by simp only [hd]; omega), hr']
    rfl
  · simp only [List.length_cons, List.length_map, List.length_range]
    omega

/-- Witness of C13: one queued window and an engine that returns 3 bytes `0, 1, 2`. -/
theorem C13_payload_is_header_and_engine_bytes_witness :
    enc_process (fun (e : Option Nat) _ _ _ => { enc := e, ret := 3, out := fun i => i })
        enc_init [{ data := List.replicate 320 9, past := fun _ => 0 }]
      = some ({ enc := none, mb := [], ts := 160, dtx := false },
          [EncEvent.Encoder_Interface_Encode 7 (List.replicate 320 9) 3,
           EncEvent.ms_queue_put { data := [0xF0, 0, 1, 2], timestamp := 0 }]) := by
  have hfill : enc_fill (enc_init : EncState Nat).mb
      [{ data := List.replicate 320 9, past := fun _ => 0 }] = List.replicate 320 9 := by
    rw [enc_fill_eq]
    simp only [enc_init, List.map_cons, List.map_nil, List.flatten_cons, List.flatten_nil,
      List.append_nil, List.nil_append]
  have ht : (List.replicate 320 9 : List Nat).take 320 = List.replicate 320 9 :=
    List.take_of_length_le (by rw [List.length_replicate])
  have hd : (List.replicate 320 9 : List Nat).drop 320 = [] :=
    List.drop_of_length_le (by rw [List.length_replicate])
  have h := C13_payload_is_header_and_engine_bytes
    (fun (e : Option Nat) _ _ _ => { enc := e, ret := 3, out := fun i => i })
    enc_init [{ data := List.replicate 320 9, past := fun _ => 0 }]
    (by rw [hfill, List.length_replicate])
    (by decide)
  rw [hfill, ht, hd] at h
  obtain ⟨r, h1, h2, _, _⟩ := h
  have h0 : enc_process
      (fun (e : Option Nat) _ _ _ => { enc := e, ret := 3, out := fun i => i })
      { enc := none, mb := [], ts := ((enc_init : EncState Nat).ts + 160) % 2 ^ 32,
        dtx := (enc_init : EncState Nat).dtx } []
      = some ({ enc := none, mb := [], ts := 160, dtx := false }, []) := rfl
  have h1' : enc_process
      (fun (e : Option Nat) _ _ _ => { enc := e, ret := 3, out := fun i => i })
      { enc := none, mb := [], ts := ((enc_init : EncState Nat).ts + 160) % 2 ^ 32,
        dtx := (enc_init : EncState Nat).dtx } [] = some r := h1
  rw [h0] at h1'
  cases h1'
  exact h2

/-- Reading entry `i` of a list of consecutive stamps. -/
theorem stamps_getElem (a m i t : Nat)
    (h : ((List.range m).map (fun k => (a + 160 * k) % 2 ^ 32))[i]? = some t) :
    i < m ∧ t = (a + 160 * i) % 2 ^ 32 := by
  by_cases hi : i < m
  · rw [List.getElem?_map, List.getElem?_range hi, Option.map_some'] at h
    exact ⟨hi, (Option.some.inj h).symm⟩
  · rw [List.getElem?_eq_none (by simpa using Nat.le_of_not_lt hi)] at h
    cases h

/-- C14 (amended): in every session (from `enc_init`, with or without `enc_preprocess`)
and for every sequence of `enc_process` calls with any engine, each emitted payload's
timestamp is the timestamp of the payload emitted before it plus 160 modulo `2^32` (the
counter is a `uint32_t`); it is strictly greater than the one before as long as the counter
has not wrapped, that is for the payload of rank `i + 1` whenever `160 * (i + 1) < 2^32`. -/
theorem C14_timestamps_step_by_160_mod_2_32 {ε : Type}
    (encode : Option ε → Nat → List Nat → Nat → EncodeResult ε)
    (Encoder_Interface_init : Bool → Option ε) (qs : List (List mblk_t)) :
    ∃ r, enc_run encode (enc_preprocess Encoder_Interface_init enc_init) qs = some r ∧
      (∀ i t t', ((payloads r.2.flatten).map Payload.timestamp)[i]? = some t →
        ((payloads r.2.flatten).map Payload.timestamp)[i + 1]? = some t' →
        t' = (t + 160) % 2 ^ 32) ∧
      (∀ i t t', ((payloads r.2.flatten).map Payload.timestamp)[i]? = some t →
        ((payloads r.2.flatten).map Payload.timestamp)[i + 1]? = some t' →
        160 * (i + 1) < 2 ^ 32 → t < t') := by
  obtain ⟨r, hr, hst, _⟩ := enc_run_stamps encode qs
    (enc_preprocess Encoder_Interface_init enc_init) (by simp [enc_preprocess, enc_init])
  have h0 : (enc_preprocess Encoder_Interface_init (enc_init : EncState ε)).ts = 0 := rfl
  rw [h0] at hst
  refine ⟨r, hr, ?_, ?_⟩
  · intro i t t' h1 h2
    rw [hst] at h1 h2
    obtain ⟨_, e1⟩ := stamps_getElem 0 _ i t h1
    obtain ⟨_, e2⟩ := stamps_getElem 0 _ (i + 1) t' h2
    rw [e1, e2]
    omega
  · intro i t t' h1 h2 hlt
    rw [hst] at h1 h2
    obtain ⟨_, e1⟩ := stamps_getElem 0 _ i t h1
    obtain ⟨_, e2⟩ := stamps_getElem 0 _ (i + 1) t' h2
    have a1 : (0 + 160 * i) % 2 ^ 32 = 160 * i := by
      rw [Nat.zero_add]; exact Nat.mod_eq_of_lt (by omega)
    have a2 : (0 + 160 * (i + 1)) % 2 ^ 32 = 160 * (i + 1) := by
      rw [Nat.zero_add]; exact Nat.mod_eq_of_lt hlt
    rw [e1, e2, a1, a2]
    omega

/-- Witness of C14: three one-window calls with an engine that returns one byte. -/
theorem C14_timestamps_step_by_160_mod_2_32_witness :
    ∃ r, enc_run (fun (e : Option Nat) _ _ _ => { enc := e, ret := 1, out := fun _ => 0 })
        (enc_preprocess (fun _ => some 0) enc_init)
        [[{ data := List.replicate 320 0, past := fun _ => 0 }], [],
         [{ data := List.replicate 320 0, past := fun _ => 0 }]] = some r ∧
      (∀ i t t', ((payloads r.2.flatten).map Payload.timestamp)[i]? = some t →
        ((payloads r.2.flatten).map Payload.timestamp)[i + 1]? = some t' →
        t' = (t + 160) % 2 ^ 32) ∧
      (∀ i t t', ((payloads r.2.flatten).map Payload.timestamp)[i]? = some t →
        ((payloads r.2.flatten).map Payload.timestamp)[i + 1]? = some t' →
        160 * (i + 1) < 2 ^ 32 → t < t') :=
  C14_timestamps_step_by_160_mod_2_32
    (fun (e : Option Nat) _ _ _ => { enc := e, ret := 1, out := fun _ => 0 })
    (fun _ => some 0)
    [[{ data := List.replicate 320 0, past := fun _ => 0 }], [],
     [{ data := List.replicate 320 0, past := fun _ => 0 }]]

/-- Counterexample to C14 as stated: with an engine that always returns one byte, in
`26843547` one-window calls the payload of rank `26843545` carries `4294967200` and the
next one carries `64`, which is not greater. -/
theorem C14_timestamps_not_increasing_counterexample :
    ∃ r, enc_run (fun (e : Option Nat) _ _ _ => { enc := e, ret := 1, out := fun _ => 0 })
        enc_init
        ((List.replicate 26843547 ({ data := List.replicate 320 0, past := fun _ => 0 } :
          mblk_t)).map (fun w => [w])) = some r ∧
      (r.2.map (fun log => (payloads log).map Payload.timestamp))[26843545]?
        = some [4294967200] ∧
      (r.2.map (fun log => (payloads log).map Payload.timestamp))[26843546]? = some [64] ∧
      ¬ (4294967200 < 64) := by
  obtain ⟨r, h1, h2, _, _⟩ := enc_run_one_window_cycles
    (fun (e : Option Nat) _ _ _ => { enc := e, ret := 1, out := fun _ => 0 })
    (fun _ _ _ _ => (by decide : (0 : Int) < 1))
    (List.replicate 26843547 ({ data := List.replicate 320 0, past := fun _ => 0 } : mblk_t))
    enc_init rfl (show (enc_init : EncState Nat).ts < 2 ^ 32 by decide)
    (fun w hw => by rw [List.eq_of_mem_replicate hw]; exact List.length_replicate _ _)
  refine ⟨r, h1, ?_, ?_, by decide⟩
  · rw [h2, List.length_replicate, List.getElem?_map, List.getElem?_range (by decide),
      Option.map_some']
    rfl
  · rw [h2, List.length_replicate, List.getElem?_map, List.getElem?_range (by decide),
      Option.map_some']
    rfl

/-- C17: after `enc_init` (with or without `enc_preprocess`) and any sequence of
`enc_process` calls, whatever the engine returns, every call returns, the timestamp counter
equals 160 times the number of payloads emitted so far modulo `2^32`, and the payload of
rank `k` carries the timestamp `160 * k mod 2^32`. -/
theorem C17_counter_is_160_times_payloads {ε : Type}
    (encode : Option ε → Nat → List Nat → Nat → EncodeResult ε)
    (Encoder_Interface_init : Bool → Option ε) (qs : List (List mblk_t)) :
    ∃ r, enc_run encode (enc_preprocess Encoder_Interface_init enc_init) qs = some r ∧
      r.1.ts = 160 * (payloads r.2.flatten).length % 2 ^ 32 ∧
      (payloads r.2.flatten).map Payload.timestamp
        = (List.range (payloads r.2.flatten).length).map (fun k => 160 * k % 2 ^ 32) := by
  obtain ⟨r, hr, hst, hfin⟩ := enc_run_stamps encode qs
    (enc_preprocess Encoder_Interface_init enc_init) (by simp [enc_preprocess, enc_init])
  have h0 : (enc_preprocess Encoder_Interface_init (enc_init : EncState ε)).ts = 0 := rfl
  rw [h0] at hst hfin
  simp only [Nat.zero_add] at hst hfin
  exact ⟨r, hr, hfin, hst⟩

/-! ## Messages are decoded independently -/

/-- The frame sizes of the valid modes lie between 5 and 31, and their index is inside
the table. -/
theorem amr_frame_sizes_bounds (index : Nat) (h : index < 9) :
    index < amr_frame_sizes.length ∧ 5 ≤ amr_frame_sizes.getD index 0 ∧
      amr_frame_sizes.getD index 0 ≤ 31 := by
  interval_cases index <;> decide

/-- The units the frame loop hands to the engine do not depend on the engine or on its
state. -/
theorem dec_frames_units_state {σ β : Type} (dec : σ → List Nat → σ × β) (im : mblk_t)
    (tocs : Nat) : ∀ (n i b_rptr : Nat) (st st' : σ),
      units (dec_frames dec im tocs n i b_rptr st).2
        = units (dec_frames dec im tocs n i b_rptr st').2 := by
  intro n
  induction n with
  | zero => intro i b st st'; rfl
  | succ n ih =>
    intro i b st st'
    by_cases h : 9 ≤ toc_get_index (im.byte (tocs + i))
    · rw [dec_frames_bad_index dec im tocs n i b st h,
        dec_frames_bad_index dec im tocs n i b st' h]
    · have h9 : toc_get_index (im.byte (tocs + i)) < 9 := Nat.lt_of_not_le h
      by_cases ht : im.data.length <
          b + amr_frame_sizes.getD (toc_get_index (im.byte (tocs + i))) 0
      · rw [dec_frames_truncated dec im tocs n i b st h9 ht,
          dec_frames_truncated dec im tocs n i b st' h9 ht]
      · rw [dec_frames_step dec im tocs n i b st h9 (Nat.le_of_not_lt ht),
          dec_frames_step dec im tocs n i b st' h9 (Nat.le_of_not_lt ht)]
        simp only [units]
        rw [ih]

/-- What one message contributes: nothing, or what its frame loop contributes. -/
theorem dec_process_msg_inv {σ β : Type} (dec : σ → List Nat → σ × β) (st : σ) (im : mblk_t)
    (r : σ × List (Event β)) (h : dec_process_msg dec st im = some r) :
    (units r.2 = [] ∧ blocks r.2 = [] ∧ copies r.2 = []) ∨
    (2 ≤ msgdsize im ∧ ∃ toclen : Nat,
      units r.2 = units (dec_frames dec im 1 toclen 0 (1 + toclen) st).2 ∧
      blocks r.2 = blocks (dec_frames dec im 1 toclen 0 (1 + toclen) st).2 ∧
      copies r.2 = copies (dec_frames dec im 1 toclen 0 (1 + toclen) st).2) := by
  by_cases hs : msgdsize im < 2
  · rw [dec_process_msg_short dec st im hs] at h
    cases h
    exact Or.inl ⟨rfl, rfl, rfl⟩
  · obtain ⟨⟨toclen, reads⟩, hr⟩ :=
      toc_list_check_total (fun k => im.byte (1 + k)) (msgdsize im)
    by_cases h1 : toclen = -1
    · simp only [dec_process_msg, hs, if_false, hr, h1, if_true] at h
      cases h
      exact Or.inl ⟨rfl, rfl, rfl⟩
    · simp only [dec_process_msg, hs, if_false, hr, h1] at h
      cases h
      refine Or.inr ⟨Nat.le_of_not_lt hs, toclen.toNat, ?_, ?_, ?_⟩
      · simp [units, units_append]
      · simp [blocks, blocks_append]
      · simp [copies, copies_append]

/-- The units of one message do not depend on the engine state. -/
theorem dec_process_msg_units_state {σ β : Type} (dec : σ → List Nat → σ × β) (st st' : σ)
    (im : mblk_t) (r r' : σ × List (Event β)) (h : dec_process_msg dec st im = some r)
    (h' : dec_process_msg dec st' im = some r') : units r.2 = units r'.2 := by
  by_cases hs : msgdsize im < 2
  · rw [dec_process_msg_short dec st im hs] at h
    rw [dec_process_msg_short dec st' im hs] at h'
    cases h; cases h'; rfl
  · obtain ⟨⟨toclen, reads⟩, hr⟩ :=
      toc_list_check_total (fun k => im.byte (1 + k)) (msgdsize im)
    by_cases h1 : toclen = -1
    · simp only [dec_process_msg, hs, if_false, hr, h1, if_true] at h h'
      cases h; cases h'; rfl
    · simp only [dec_process_msg, hs, if_false, hr, h1] at h h'
      cases h; cases h'
      have e : ∀ (ev : Event β) (l : List (Event β)),
          (∀ tmp, ev ≠ Event.Decoder_Interface_Decode tmp) →
          units (ev :: l ++ [Event.freemsg]) = units l := by
        intro ev l hev
        cases ev <;> simp [units, units_append] at hev ⊢
      rw [e _ _ (fun tmp => by simp), e _ _ (fun tmp => by simp),
        dec_frames_units_state dec im 1 _ _ _ st st']

/-- Taking a queue apart: the first message, then the rest. -/
theorem dec_process_cons_inv {σ β : Type} (dec : σ → List Nat → σ × β) (st : σ) (im : mblk_t)
    (q : List mblk_t) (r : σ × List (Event β)) (h : dec_process dec st (im :: q) = some r) :
    ∃ r1 r2, dec_process_msg dec st im = some r1 ∧ dec_process dec r1.1 q = some r2 ∧
      r = (r2.1, r1.2 ++ r2.2) := by
  obtain ⟨r1, h1⟩ := dec_process_msg_total dec st im
  obtain ⟨r2, h2⟩ := dec_process_total dec q r1.1
  rw [dec_process_cons dec st im q r1 r2 h1 h2] at h
  exact ⟨r1, r2, h1, h2, (Option.some.inj h).symm⟩

/-- The units of a queue do not depend on the engine state. -/
theorem dec_process_units_state {σ β : Type} (dec : σ → List Nat → σ × β) :
    ∀ (q : List mblk_t) (st st' : σ) (r r' : σ × List (Event β)),
      dec_process dec st q = some r → dec_process dec st' q = some r' →
      units r.2 = units r'.2 := by
  intro q
  induction q with
  | nil =>
    intro st st' r r' h h'
    simp only [dec_process, Option.some.injEq] at h h'
    subst h; subst h'; rfl
  | cons im q ih =>
    intro st st' r r' h h'
    obtain ⟨r1, r2, a1, a2, rfl⟩ := dec_process_cons_inv dec st im q r h
    obtain ⟨r1', r2', b1, b2, rfl⟩ := dec_process_cons_inv dec st' im q r' h'
    simp only [units_append]
    rw [dec_process_msg_units_state dec st st' im r1 r1' a1 b1, ih _ _ r2 r2' a2 b2]

/-- A queue `A ++ B` is processed as `A` and then `B` from the engine state `A` left. -/
theorem dec_process_append {σ β : Type} (dec : σ → List Nat → σ × β) :
    ∀ (A B : List mblk_t) (st : σ), ∃ rA rB, dec_process dec st A = some rA ∧
      dec_process dec rA.1 B = some rB ∧
      dec_process dec st (A ++ B) = some (rB.1, rA.2 ++ rB.2) := by
  intro A
  induction A with
  | nil =>
    intro B st
    obtain ⟨rB, hB⟩ := dec_process_total dec B st
    exact ⟨(st, []), rB, rfl, hB, by simpa using hB⟩
  | cons im A ih =>
    intro B st
    obtain ⟨r1, h1⟩ := dec_process_msg_total dec st im
    obtain ⟨rA, rB, hA, hB, hAB⟩ := ih B r1.1
    refine ⟨(rA.1, r1.2 ++ rA.2), rB, dec_process_cons dec st im A r1 rA h1 hA, hB, ?_⟩
    rw [List.cons_append, dec_process_cons dec st im (A ++ B) r1 _ h1 hAB, List.append_assoc]

/-- Blocks and engine calls correspond one to one on a whole queue. -/
theorem dec_process_blocks_length {σ β : Type} (dec : σ → List Nat → σ × β) :
    ∀ (q : List mblk_t) (st : σ) (r : σ × List (Event β)), dec_process dec st q = some r →
      (blocks r.2).length = (units r.2).length := by
  intro q
  induction q with
  | nil =>
    intro st r h
    simp only [dec_process, Option.some.injEq] at h
    subst h; rfl
  | cons im q ih =>
    intro st r h
    obtain ⟨r1, r2, a1, a2, rfl⟩ := dec_process_cons_inv dec st im q r h
    simp only [blocks_append, units_append, List.length_append, ih _ r2 a2]
    congr 1
    rcases dec_process_msg_inv dec st im r1 a1 with ⟨hu, hb, _⟩ | ⟨_, toclen, hu, hb, _⟩
    · rw [hu, hb]; rfl
    · rw [hu, hb, dec_frames_blocks, decode_run_length]

/-- Every unit of the frame loop is a TOC byte of valid mode followed by as many bytes
as the table gives for it, at most 31. -/
theorem dec_frames_units_fit {σ β : Type} (dec : σ → List Nat → σ × β) (im : mblk_t)
    (tocs : Nat) : ∀ (n i b_rptr : Nat) (st : σ),
      ∀ u ∈ units (dec_frames dec im tocs n i b_rptr st).2,
        ∃ toc frame, u = toc :: frame ∧ toc_get_index toc ≤ 8 ∧
          toc_get_index toc < amr_frame_sizes.length ∧
          u.length = 1 + amr_frame_sizes.getD (toc_get_index toc) 0 ∧
          u.length ≤ sizeof_tmp := by
  intro n
  induction n with
  | zero => intro i b st u hu; simp [dec_frames, units] at hu
  | succ n ih =>
    intro i b st u hu
    by_cases h : 9 ≤ toc_get_index (im.byte (tocs + i))
    · rw [dec_frames_bad_index dec im tocs n i b st h] at hu; simp [units] at hu
    · have h9 : toc_get_index (im.byte (tocs + i)) < 9 := Nat.lt_of_not_le h
      by_cases ht : im.data.length <
          b + amr_frame_sizes.getD (toc_get_index (im.byte (tocs + i))) 0
      · rw [dec_frames_truncated dec im tocs n i b st h9 ht] at hu; simp [units] at hu
      · rw [dec_frames_step dec im tocs n i b st h9 (Nat.le_of_not_lt ht)] at hu
        simp only [units, List.mem_cons] at hu
        rcases hu with rfl | hu
        · obtain ⟨hin, _, hle⟩ := amr_frame_sizes_bounds _ h9
          have hlen : ((im.data.drop b).take
              (amr_frame_sizes.getD (toc_get_index (im.byte (tocs + i))) 0)).length
              = amr_frame_sizes.getD (toc_get_index (im.byte (tocs + i))) 0 := by
            rw [List.length_take, List.length_drop]
            omega
          refine ⟨_, _, rfl, Nat.le_of_lt_succ h9, hin, ?_, ?_⟩
          · rw [List.length_cons, hlen]; omega
          · rw [List.length_cons, hlen]; simp only [sizeof_tmp]; omega
        · exact ih _ _ _ u hu

/-- Every frame copy of the frame loop fits behind `tmp[0]`. -/
theorem dec_frames_copies_fit {σ β : Type} (dec : σ → List Nat → σ × β) (im : mblk_t)
    (tocs : Nat) : ∀ (n i b_rptr : Nat) (st : σ),
      ∀ c ∈ copies (dec_frames dec im tocs n i b_rptr st).2, 1 + c.2 ≤ sizeof_tmp := by
  intro n
  induction n with
  | zero => intro i b st c hc; simp [dec_frames, copies] at hc
  | succ n ih =>
    intro i b st c hc
    by_cases h : 9 ≤ toc_get_index (im.byte (tocs + i))
    · rw [dec_frames_bad_index dec im tocs n i b st h] at hc; simp [copies] at hc
    · have h9 : toc_get_index (im.byte (tocs + i)) < 9 := Nat.lt_of_not_le h
      by_cases ht : im.data.length <
          b + amr_frame_sizes.getD (toc_get_index (im.byte (tocs + i))) 0
      · rw [dec_frames_truncated dec im tocs n i b st h9 ht] at hc; simp [copies] at hc
      · rw [dec_frames_step dec im tocs n i b st h9 (Nat.le_of_not_lt ht)] at hc
        simp only [copies, List.mem_cons] at hc
        rcases hc with rfl | hc
        · obtain ⟨_, _, hle⟩ := amr_frame_sizes_bounds _ h9
          simp only [sizeof_tmp]; omega
        · exact ih _ _ _ c hc

/-- C15: the decoder carries nothing from one message to the next. For all message
sequences `A` and `B`, `dec_process` on `A ++ B` returns, its events are the events on `A`
followed by the events on `B` (the engine state alone is threaded through), the units
handed to the engine are the units for `A` followed by the units `B` gives when processed
on its own, and the blocks emitted are those for `A` followed by as many blocks as `B`
gives on its own, one per unit, in order. -/
theorem C15_messages_decoded_independently {σ β : Type} (dec : σ → List Nat → σ × β)
    (st : σ) (A B : List mblk_t) :
    ∃ rA rB rB0 rAB, dec_process dec st A = some rA ∧ dec_process dec rA.1 B = some rB ∧
      dec_process dec st B = some rB0 ∧ dec_process dec st (A ++ B) = some rAB ∧
      rAB.2 = rA.2 ++ rB.2 ∧
      units rAB.2 = units rA.2 ++ units rB0.2 ∧
      blocks rAB.2 = blocks rA.2 ++ blocks rB.2 ∧
      (blocks rB.2).length = (blocks rB0.2).length ∧
      (blocks rAB.2).length = (blocks rA.2).length + (blocks rB0.2).length ∧
      (blocks rAB.2).length = (units rAB.2).length := by
  obtain ⟨rA, rB, hA, hB, hAB⟩ := dec_process_append dec A B st
  obtain ⟨rB0, hB0⟩ := dec_process_total dec B st
  have hu : units rB.2 = units rB0.2 := dec_process_units_state dec B rA.1 st rB rB0 hB hB0
  have hbB := dec_process_blocks_length dec B rA.1 rB hB
  have hbB0 := dec_process_blocks_length dec B st rB0 hB0
  have hbb : (blocks rB.2).length = (blocks rB0.2).length := by rw [hbB, hbB0, hu]
  refine ⟨rA, rB, rB0, (rB.1, rA.2 ++ rB.2), hA, hB, hB0, hAB, rfl, ?_, ?_, hbb, ?_, ?_⟩
  · simp only [units_append, hu]
  · simp only [blocks_append]
  · simp only [blocks_append, List.length_append, hbb]
  · exact dec_process_blocks_length dec (A ++ B) st _ hAB

/-- C16: every unit `dec_process` hands to the engine through the scratch buffer `tmp`
starts with a TOC byte whose mode index is in `0..8`, hence inside the 10-entry table, and
has length `1 + amr_frame_sizes[index]`, which is at most `sizeof tmp = 32`; every frame
copy writes `len` bytes at `tmp[1..]` with `1 + len <= 32`. -/
theorem C16_unit_fits_scratch_buffer {σ β : Type} (dec : σ → List Nat → σ × β)
    (st : σ) (q : List mblk_t) :
    ∃ r, dec_process dec st q = some r ∧
      (∀ u ∈ units r.2, ∃ toc frame, u = toc :: frame ∧ toc_get_index toc ≤ 8 ∧
        toc_get_index toc < amr_frame_sizes.length ∧
        u.length = 1 + amr_frame_sizes.getD (toc_get_index toc) 0 ∧
        u.length ≤ sizeof_tmp) ∧
      (∀ c ∈ copies r.2, 1 + c.2 ≤ sizeof_tmp) ∧
      amr_frame_sizes.length = 10 := by
  obtain ⟨r, hr⟩ := dec_process_total dec q st
  refine ⟨r, hr, ?_, ?_, rfl⟩
  · clear * - hr
    induction q generalizing st r with
    | nil =>
      simp only [dec_process, Option.some.injEq] at hr
      subst hr
      intro u hu; simp [units] at hu
    | cons im q ih =>
      obtain ⟨r1, r2, a1, a2, rfl⟩ := dec_process_cons_inv dec st im q r hr
      intro u hu
      simp only [units_append, List.mem_append] at hu
      rcases hu with hu | hu
      · rcases dec_process_msg_inv dec st im r1 a1 with ⟨h0, _, _⟩ | ⟨_, toclen, h0, _, _⟩
        · rw [h0] at hu; simp at hu
        · rw [h0] at hu
          exact dec_frames_units_fit dec im 1 _ _ _ _ u hu
      · exact ih r1.1 r2 a2 u hu
  · clear * - hr
    induction q generalizing st r with
    | nil =>
      simp only [dec_process, Option.some.injEq] at hr
      subst hr
      intro c hc; simp [copies] at hc
    | cons im q ih =>
      obtain ⟨r1, r2, a1, a2, rfl⟩ := dec_process_cons_inv dec st im q r hr
      intro c hc
      simp only [copies_append, List.mem_append] at hc
      rcases hc with hc | hc
      · rcases dec_process_msg_inv dec st im r1 a1 with ⟨_, _, h0⟩ | ⟨_, toclen, _, _, h0⟩
        · rw [h0] at hc; simp at hc
        · rw [h0] at hc
          exact dec_frames_copies_fit dec im 1 _ _ _ _ c hc
      · exact ih r1.1 r2 a2 c hc

/-- The frame loop emits at most one block per TOC entry, and each block accounts for at
least 5 frame bytes between the cursor and `b_wptr`. -/
theorem dec_frames_count {σ β : Type} (dec : σ → List Nat → σ × β) (im : mblk_t)
    (tocs : Nat) : ∀ (n i b_rptr : Nat) (st : σ),
      (blocks (dec_frames dec im tocs n i b_rptr st).2).length ≤ n ∧
      ((blocks (dec_frames dec im tocs n i b_rptr st).2).length = 0 ∨
        b_rptr + 5 * (blocks (dec_frames dec im tocs n i b_rptr st).2).length
          ≤ im.data.length) := by
  intro n
  induction n with
  | zero => intro i b st; simp [dec_frames, blocks]
  | succ n ih =>
    intro i b st
    by_cases h : 9 ≤ toc_get_index (im.byte (tocs + i))
    · rw [dec_frames_bad_index dec im tocs n i b st h]; simp [blocks]
    · have h9 : toc_get_index (im.byte (tocs + i)) < 9 := Nat.lt_of_not_le h
      by_cases ht : im.data.length <
          b + amr_frame_sizes.getD (toc_get_index (im.byte (tocs + i))) 0
      · rw [dec_frames_truncated dec im tocs n i b st h9 ht]; simp [blocks]
      · rw [dec_frames_step dec im tocs n i b st h9 (Nat.le_of_not_lt ht)]
        obtain ⟨_, h5, _⟩ := amr_frame_sizes_bounds _ h9
        obtain ⟨hn, hb⟩ := ih (i + 1)
          (b + amr_frame_sizes.getD (toc_get_index (im.byte (tocs + i))) 0)
          (dec st (im.byte (tocs + i) :: (im.data.drop b).take
            (amr_frame_sizes.getD (toc_get_index (im.byte (tocs + i))) 0))).1
        simp only [blocks, List.length_cons]
        refine ⟨by omega, Or.inr ?_⟩
        rcases hb with hb | hb
        · rw [hb]; omega
        · omega

/-- C18: for a message of length `L`, `dec_process` returns and the number `k` of blocks
it emits satisfies `6 * k <= L - 1` when `L >= 2` (each block accounts for one TOC byte
and at least 5 frame bytes after the header byte), and `k = 0` when `L < 2`. -/
theorem C18_blocks_bounded_by_message_length {σ β : Type} (dec : σ → List Nat → σ × β)
    (st : σ) (im : mblk_t) :
    ∃ r, dec_process dec st [im] = some r ∧
      (2 ≤ msgdsize im → 6 * (blocks r.2).length ≤ msgdsize im - 1) ∧
      (msgdsize im < 2 → (blocks r.2).length = 0) := by
  obtain ⟨r, hr⟩ := dec_process_msg_total dec st im
  refine ⟨r, dec_process_single dec st im r hr, ?_, ?_⟩
  · intro _
    rcases dec_process_msg_inv dec st im r hr with ⟨_, hb, _⟩ | ⟨_, toclen, _, hb, _⟩
    · rw [hb]; simp
    · rw [hb]
      obtain ⟨hn, hk⟩ := dec_frames_count dec im 1 toclen 0 (1 + toclen) st
      have hL : msgdsize im = im.data.length := rfl
      rcases hk with hk | hk
      · rw [hk]; omega
      · omega
  · intro hs
    rw [dec_process_msg_short dec st im hs] at hr
    cases hr
    rfl

/-- Witness of C18: a 13-byte message with two mode-8 frames gives two blocks,
`6 * 2 <= 12`. -/
theorem C18_blocks_bounded_by_message_length_witness :
    ∃ r, dec_process (fun (s : Nat) (_ : List Nat) => (s + 1, s)) 0
        [{ data := [0xf0, 0xc0, 0x40, 1, 2, 3, 4, 5, 6, 7, 8, 9, 10], past := fun _ => 0 }]
          = some r ∧ (blocks r.2).length = 2 ∧ 6 * (blocks r.2).length ≤ 13 - 1 := by
  obtain ⟨r, h1, h2, _⟩ := C18_blocks_bounded_by_message_length
    (fun (s : Nat) (_ : List Nat) => (s + 1, s)) 0
    { data := [0xf0, 0xc0, 0x40, 1, 2, 3, 4, 5, 6, 7, 8, 9, 10], past := fun _ => 0 }
  have h0 : dec_process (fun (s : Nat) (_ : List Nat) => (s + 1, s)) 0
      [{ data := [0xf0, 0xc0, 0x40, 1, 2, 3, 4, 5, 6, 7, 8, 9, 10], past := fun _ => 0 }]
      = some (2, [Event.toc_list_check 13 [1, 2] 2,
          Event.memcpy 3 5, Event.Decoder_Interface_Decode [0xc0, 1, 2, 3, 4, 5],
          Event.ms_queue_put { pcm := 0, nbytes := 320 },
          Event.memcpy 8 5, Event.Decoder_Interface_Decode [0x40, 6, 7, 8, 9, 10],
          Event.ms_queue_put { pcm := 1, nbytes := 320 }, Event.freemsg]) := rfl
  have hb : (blocks r.2).length = 2 := by
    rw [h0] at h1
    cases h1
    rfl
  exact ⟨r, h1, hb, h2 (by decide)⟩

end Msamr
